import Mathlib

/-!
Verification of the slater agent-controller core (`src/slater`).

The Python data model is shallowly embedded:

* `Scope`, `FactType`, `PyVal`, `Fact` mirror `slater/types.py`;
* the nested `Facts` container (a `dict` whose values are leaf `Fact`s or
  nested `Facts`) is the mutual inductive `Facts` / `FactsValue`, an
  insertion-ordered association spine (Python dicts preserve insertion
  order and have unique keys);
* `iterFacts`, `serialize`, `flatten`, `unflatten`, `deserialize` are the
  methods of `Facts`; `unflatten` returns `Except` because the Python code
  raises `TypeError` when a dotted path runs into a leaf `Fact`;
* dotted fully-qualified keys are real strings: `splitDots` models
  `str.split(".")` and `joinKey` models `f"{prefix}.{key}" if prefix else key`.

Python `dict` equality ignores insertion order, so flat mappings are
compared with `dictEqFlat` (same lookups at every key).
-/

namespace Slater

/-- Scope literal of a fact: `"iteration" | "session" | "persistent"`
(`slater/types.py`, `Scope`). -/
inductive Scope where
  | iteration
  | session
  | persistent
deriving DecidableEq, Repr

/-- The Python class tag of a fact object: `Fact` itself or one of its
five behaviourless subclasses (`slater/types.py`). -/
inductive FactType where
  | base
  | progress
  | authorization
  | knowledge
  | artifact
  | diagnostic
deriving DecidableEq, Repr

mutual
/-- A JSON-serializable Python value.  `atom n` stands for an opaque
non-dict JSON-serializable object (numbers, strings, lists, ...); `pdict`
is a dict with string keys, which `EmissionSpec.build` must be able to
recognise (`isinstance(value, dict)`). -/
inductive PyVal where
  | atom (n : Nat)
  | pdict (fields : PyFields)

/-- The entry spine of a Python dict value (string keys, insertion
order). -/
inductive PyFields where
  | nil
  | cons (k : String) (v : PyVal) (rest : PyFields)
end

mutual
def PyVal.beq : PyVal → PyVal → Bool
  | .atom a, .atom b => a = b
  | .pdict fs, .pdict gs => PyFields.beq fs gs
  | _, _ => false
def PyFields.beq : PyFields → PyFields → Bool
  | .nil, .nil => true
  | .cons k v fs, .cons k2 v2 gs => k = k2 && PyVal.beq v v2 && PyFields.beq fs gs
  | _, _ => false
end

mutual
theorem PyVal.beq_iff_pv : ∀ a b : PyVal, PyVal.beq a b = true ↔ a = b
  | .atom a, .atom b => by simp [PyVal.beq]
  | .atom a, .pdict gs => by simp [PyVal.beq]
  | .pdict fs, .atom b => by simp [PyVal.beq]
  | .pdict fs, .pdict gs => by
      simpa [PyVal.beq] using PyFields.beq_iff_pf fs gs
theorem PyFields.beq_iff_pf : ∀ a b : PyFields, PyFields.beq a b = true ↔ a = b
  | .nil, .nil => by simp [PyFields.beq]
  | .nil, .cons k v gs => by simp [PyFields.beq]
  | .cons k v fs, .nil => by simp [PyFields.beq]
  | .cons k v fs, .cons k2 v2 gs => by
      simp [PyFields.beq, Bool.and_eq_true, PyVal.beq_iff_pv v v2, PyFields.beq_iff_pf fs gs,
        and_assoc]
end

instance : DecidableEq PyVal := fun a b =>
  decidable_of_iff (PyVal.beq a b = true) (PyVal.beq_iff_pv a b)

instance : DecidableEq PyFields := fun a b =>
  decidable_of_iff (PyFields.beq a b = true) (PyFields.beq_iff_pf a b)

instance : Repr PyVal := ⟨fun v _ => match v with
  | .atom n => s!"atom {n}"
  | .pdict _ => "pdict .."⟩

/-- `Fact` (`slater/types.py`): a frozen dataclass `(key, value, scope)`;
`factType` records the Python class of the object (dataclass equality also
compares the class). -/
structure Fact where
  key : String
  value : PyVal
  scope : Scope
  factType : FactType := .base
deriving DecidableEq, Repr

/-- The serialized form of a single `Fact`: the dict
`{"key": .., "value": .., "scope": ..}` built by `Fact.serialize`.  The
`scope` entry is the scope literal string; the class of the fact is not
recorded. -/
structure SerializedFact where
  key : String
  value : PyVal
  scope : Scope
deriving DecidableEq, Repr

/-- `Fact.serialize` (`types.py:33`).  The `json.dumps` check passes for
every `PyVal` (all modelled values are JSON-serializable, which is the
regime of the round-trip claims). -/
def Fact.serialize (f : Fact) : SerializedFact :=
  { key := f.key, value := f.value, scope := f.scope }

/-- `Fact.deserialize` (`types.py:48`): classmethod on `Fact` itself, so
the reconstructed object is always of the base class `Fact`. -/
def Fact.deserialize (d : SerializedFact) : Fact :=
  { key := d.key, value := d.value, scope := d.scope, factType := .base }

mutual
/-- A value stored in a `Facts` container: a leaf `Fact` or a nested
`Facts` group (`FactsValue = Union[Fact, Facts]` in `types.py`). -/
inductive FactsValue where
  | leaf (f : Fact)
  | group (t : Facts)

/-- The `Facts` container (`types.py:77`): an insertion-ordered mapping
from string keys to `FactsValue`s, keys unique.  `nil`/`consE` form the
entry spine. -/
inductive Facts where
  | nil
  | consE (key : String) (v : FactsValue) (rest : Facts)
end

mutual
def FactsValue.beq : FactsValue → FactsValue → Bool
  | .leaf f, .leaf g => f = g
  | .group t, .group u => Facts.beq t u
  | _, _ => false
def Facts.beq : Facts → Facts → Bool
  | .nil, .nil => true
  | .consE k v r, .consE k2 v2 r2 => k = k2 && FactsValue.beq v v2 && Facts.beq r r2
  | _, _ => false
end

mutual
theorem FactsValue.beq_iff_fv : ∀ a b : FactsValue, FactsValue.beq a b = true ↔ a = b
  | .leaf f, .leaf g => by simp [FactsValue.beq]
  | .leaf f, .group u => by simp [FactsValue.beq]
  | .group t, .leaf g => by simp [FactsValue.beq]
  | .group t, .group u => by
      simpa [FactsValue.beq] using Facts.beq_iff_tree t u
theorem Facts.beq_iff_tree : ∀ a b : Facts, Facts.beq a b = true ↔ a = b
  | .nil, .nil => by simp [Facts.beq]
  | .nil, .consE k v r => by simp [Facts.beq]
  | .consE k v r, .nil => by simp [Facts.beq]
  | .consE k v r, .consE k2 v2 r2 => by
      simp [Facts.beq, Bool.and_eq_true, FactsValue.beq_iff_fv v v2, Facts.beq_iff_tree r r2,
        and_assoc]
end

instance : DecidableEq FactsValue := fun a b =>
  decidable_of_iff (FactsValue.beq a b = true) (FactsValue.beq_iff_fv a b)

instance : DecidableEq Facts := fun a b =>
  decidable_of_iff (Facts.beq a b = true) (Facts.beq_iff_tree a b)

/-- Python dict lookup `self[key]` on a `Facts` container (`None` when the
key is absent, i.e. `KeyError`). -/
def Facts.findKey : Facts → String → Option FactsValue
  | .nil, _ => none
  | .consE k v rest, key => if k = key then some v else rest.findKey key

/-- Python dict assignment `self[key] = v`: updates the binding in place
when the key is present (position preserved), appends otherwise. -/
def Facts.setKey : Facts → String → FactsValue → Facts
  | .nil, key, v => .consE key v .nil
  | .consE k v0 rest, key, v =>
      if k = key then .consE k v rest else .consE k v0 (rest.setKey key v)

/-- The list of keys of a `Facts` container, in insertion order. -/
def Facts.keys : Facts → List String
  | .nil => []
  | .consE k _ rest => k :: rest.keys

-- ---------------------------------------------------------------------------
-- Dotted fully-qualified keys: str.split(".") and the f-string join
-- ---------------------------------------------------------------------------

/-- Character-level model of `str.split(".")`. -/
def splitCh : List Char → List (List Char)
  | [] => [[]]
  | c :: rest =>
      if c = '.' then [] :: splitCh rest
      else
        match splitCh rest with
        | g :: gs => (c :: g) :: gs
        | [] => [[c]]

/-- Character-level model of `".".join`. -/
def joinCh : List (List Char) → List Char
  | [] => []
  | [g] => g
  | g :: gs => g ++ '.' :: joinCh gs

theorem splitCh_ne_nil : ∀ cs, splitCh cs ≠ [] := by
  intro cs
  induction cs with
  | nil => simp [splitCh]
  | cons c rest ih =>
      by_cases h : c = '.'
      · simp [splitCh, h]
      · simp only [splitCh, if_neg h]
        cases hs : splitCh rest with
        | nil => simp
        | cons g gs => simp

/-- `fq_key.split(".")` (`types.py:171`). -/
def splitDots (s : String) : List String :=
  (splitCh s.data).map String.mk

/-- `".".join(parts)`; used only in specification statements. -/
def joinDots (parts : List String) : String :=
  ⟨joinCh (parts.map String.data)⟩

/-- `f"{prefix}.{key}" if prefix else key` (`types.py:127`). -/
def joinKey (pre k : String) : String :=
  if pre = "" then k else pre ++ "." ++ k

theorem splitDots_ne_nil (s : String) : splitDots s ≠ [] := by
  simpa [splitDots] using splitCh_ne_nil s.data

-- ---------------------------------------------------------------------------
-- Facts methods (types.py)
-- ---------------------------------------------------------------------------

mutual
/-- `Facts.iter_facts(prefix)` (`types.py:118`): DFS list of
`(fully_qualified_key, Fact)` pairs, nested groups contributing dot-joined
prefixes. -/
def Facts.iterFacts : Facts → String → List (String × Fact)
  | .nil, _ => []
  | .consE k v rest, pre =>
      FactsValue.iterFacts v (joinKey pre k) ++ Facts.iterFacts rest pre
def FactsValue.iterFacts : FactsValue → String → List (String × Fact)
  | .leaf f, fq => [(fq, f)]
  | .group t, fq => Facts.iterFacts t fq
end

/-- `Facts.flatten()` (`types.py:153`). -/
def Facts.flatten (t : Facts) : List (String × Fact) :=
  t.iterFacts ""

mutual
/-- The `walk` closure of `Facts.serialize` (`types.py:140`). -/
def Facts.serializeWalk : Facts → String → List (String × SerializedFact)
  | .nil, _ => []
  | .consE k v rest, pre =>
      FactsValue.serializeWalk v (joinKey pre k) ++ Facts.serializeWalk rest pre
def FactsValue.serializeWalk : FactsValue → String → List (String × SerializedFact)
  | .leaf f, fq => [(fq, f.serialize)]
  | .group t, fq => Facts.serializeWalk t fq
end

/-- `Facts.serialize()` (`types.py:134`): flat mapping from fully
qualified key to serialized fact dict. -/
def Facts.serialize (t : Facts) : List (String × SerializedFact) :=
  t.serializeWalk ""

/-- Errors a `Facts` operation can raise. -/
inductive PyError where
  | typeError
  | valueError
deriving DecidableEq, Repr

instance {ε α : Type} [DecidableEq ε] [DecidableEq α] : DecidableEq (Except ε α) :=
  fun a b =>
    match a, b with
    | .error e, .error e2 =>
        if h : e = e2 then isTrue (by rw [h])
        else isFalse (by intro hc; cases hc; exact h rfl)
    | .ok x, .ok y =>
        if h : x = y then isTrue (by rw [h])
        else isFalse (by intro hc; cases hc; exact h rfl)
    | .error _, .ok _ => isFalse (by intro h; cases h)
    | .ok _, .error _ => isFalse (by intro h; cases h)

/-- One `fq_key` insertion of `Facts.unflatten` (`types.py:170`–`177`):
walk `parts[:-1]`, creating empty groups where a part is missing, then
assign the fact at the last part.  Stepping into (or assigning into) a
leaf `Fact` raises `TypeError` in Python, modelled as `.error`. -/
def insertPath (t : Facts) : List String → Fact → Except PyError Facts
  | [], _ => .error .typeError
  | [last], f => .ok (t.setKey last (.leaf f))
  | part :: rest1 :: rest, f =>
      match t.findKey part with
      | none => do
          let sub ← insertPath .nil (rest1 :: rest) f
          .ok (t.setKey part (.group sub))
      | some (.group s) => do
          let s2 ← insertPath s (rest1 :: rest) f
          .ok (t.setKey part (.group s2))
      | some (.leaf _) => .error .typeError

/-- `Facts.unflatten(flat)` (`types.py:161`): raw dict assignments along
the dotted path, no key-alignment check. -/
def Facts.unflatten (flat : List (String × Fact)) : Except PyError Facts :=
  flat.foldlM (fun t kf => insertPath t (splitDots kf.1) kf.2) .nil

/-- `Facts.deserialize(flat)` (`types.py:182`):
`unflatten({k: Fact.deserialize(v) ...})`. -/
def Facts.deserialize (flat : List (String × SerializedFact)) : Except PyError Facts :=
  Facts.unflatten (flat.map fun kd => (kd.1, Fact.deserialize kd.2))

-- ---------------------------------------------------------------------------
-- Character-level lemmas about split and join
-- ---------------------------------------------------------------------------

theorem splitCh_dot (cs : List Char) : splitCh ('.' :: cs) = [] :: splitCh cs := by
  simp [splitCh]

theorem splitCh_nondot (c : Char) (hc : c ≠ '.') (cs : List Char) :
    splitCh (c :: cs) = (c :: (splitCh cs).headD []) :: (splitCh cs).tail := by
  simp only [splitCh, if_neg hc]
  cases hs : splitCh cs with
  | nil => exact absurd hs (splitCh_ne_nil cs)
  | cons g gs => simp

theorem splitCh_dotfree (cs : List Char) (h : '.' ∉ cs) : splitCh cs = [cs] := by
  induction cs with
  | nil => simp [splitCh]
  | cons c rest ih =>
      have hc : c ≠ '.' := fun hc => h (hc ▸ List.mem_cons_self c rest)
      have hr : '.' ∉ rest := fun hr => h (List.mem_cons_of_mem c hr)
      rw [splitCh_nondot c hc, ih hr]
      simp

theorem splitCh_append_dotfree (a cs : List Char) (h : '.' ∉ a) :
    splitCh (a ++ cs) = (a ++ (splitCh cs).headD []) :: (splitCh cs).tail := by
  induction a with
  | nil =>
      simp only [List.nil_append, List.append_nil]
      cases hs : splitCh cs with
      | nil => exact absurd hs (splitCh_ne_nil cs)
      | cons g gs => simp
  | cons c a ih =>
      have hc : c ≠ '.' := fun hc => h (hc ▸ List.mem_cons_self c a)
      have ha : '.' ∉ a := fun ha => h (List.mem_cons_of_mem c ha)
      rw [List.cons_append, splitCh_nondot c hc, ih ha]
      simp

theorem splitCh_joinCh (gs : List (List Char)) (hne : gs ≠ [])
    (hdf : ∀ g ∈ gs, '.' ∉ g) : splitCh (joinCh gs) = gs := by
  induction gs with
  | nil => exact absurd rfl hne
  | cons g gs ih =>
      cases gs with
      | nil =>
          exact splitCh_dotfree g (hdf g (List.mem_cons_self g []))
      | cons g2 gs2 =>
          have hg : '.' ∉ g := hdf g (List.mem_cons_self _ _)
          have hrest : ∀ x ∈ g2 :: gs2, '.' ∉ x := fun x hx =>
            hdf x (List.mem_cons_of_mem g hx)
          have hjr : splitCh (joinCh (g2 :: gs2)) = g2 :: gs2 :=
            ih (by simp) hrest
          show splitCh (g ++ '.' :: joinCh (g2 :: gs2)) = g :: g2 :: gs2
          rw [splitCh_append_dotfree g _ hg, splitCh_dot, hjr]
          simp

theorem joinCh_splitCh (cs : List Char) : joinCh (splitCh cs) = cs := by
  induction cs with
  | nil => simp [splitCh, joinCh]
  | cons c rest ih =>
      by_cases hc : c = '.'
      · subst hc
        rw [splitCh_dot]
        cases hs : splitCh rest with
        | nil => exact absurd hs (splitCh_ne_nil rest)
        | cons g gs =>
            show '.' :: joinCh (g :: gs) = '.' :: rest
            rw [← hs, ih]
      · rw [splitCh_nondot c hc]
        cases hs : splitCh rest with
        | nil => exact absurd hs (splitCh_ne_nil rest)
        | cons g gs =>
            cases gs with
            | nil =>
                show c :: g = c :: rest
                have := ih
                rw [hs] at this
                simpa [joinCh] using this
            | cons g2 gs2 =>
                show (c :: g) ++ '.' :: joinCh (g2 :: gs2) = c :: rest
                have := ih
                rw [hs] at this
                simpa [joinCh] using this

-- ---------------------------------------------------------------------------
-- String-level key lemmas
-- ---------------------------------------------------------------------------

/-- A mapping key as documented by the `Facts` class invariant
("a valid identifier-like string"): nonempty and containing no dot. -/
def validKey (k : String) : Prop := k ≠ "" ∧ '.' ∉ k.data

instance (k : String) : Decidable (validKey k) := by
  unfold validKey; infer_instance

theorem string_append_data (a b : String) : (a ++ b).data = a.data ++ b.data := rfl

theorem joinDots_cons_cons (k a : String) (rest : List String) :
    joinDots (k :: a :: rest) = k ++ "." ++ joinDots (a :: rest) := by
  apply String.ext
  have h1 : (joinDots (k :: a :: rest)).data
      = k.data ++ '.' :: joinCh (a.data :: rest.map String.data) := rfl
  have h2 : (joinDots (a :: rest)).data = joinCh (a.data :: rest.map String.data) := rfl
  rw [h1, string_append_data, string_append_data, h2]
  have hdot : (".".data : List Char) = ['.'] := rfl
  rw [hdot, List.append_assoc, List.singleton_append]

theorem joinDots_single (k : String) : joinDots [k] = k := by
  apply String.ext
  simp [joinDots, joinCh]

theorem splitDots_joinDots (parts : List String) (hne : parts ≠ [])
    (hdf : ∀ p ∈ parts, '.' ∉ p.data) : splitDots (joinDots parts) = parts := by
  unfold splitDots joinDots
  have hmap : ∀ g ∈ parts.map String.data, '.' ∉ g := by
    intro g hg
    obtain ⟨p, hp, rfl⟩ := List.mem_map.mp hg
    exact hdf p hp
  rw [show (⟨joinCh (parts.map String.data)⟩ : String).data = joinCh (parts.map String.data)
        from rfl,
      splitCh_joinCh _ (by simpa using hne) hmap]
  rw [List.map_map]
  have : (String.mk ∘ String.data) = id := by
    funext s; cases s; rfl
  simp [this]

/-- Folding `joinKey` along a path. -/
def joinAll (pre : String) (p : List String) : String :=
  p.foldl joinKey pre

theorem joinKey_empty (k : String) : joinKey "" k = k := by
  simp [joinKey]

theorem joinKey_nonempty (pre k : String) (h : pre ≠ "") :
    joinKey pre k = pre ++ "." ++ k := by
  simp [joinKey, h]

theorem append_ne_empty_left (a b : String) (h : a ≠ "") : a ++ b ≠ "" := by
  intro hab
  apply h
  cases a with
  | mk da =>
    cases b with
    | mk db =>
      have : da ++ db = [] := congrArg String.data hab
      have : da = [] := by
        cases da with
        | nil => rfl
        | cons c cs => simp at this
      simp [this]

theorem joinAll_nonempty_eq_joinDots (k : String) (p : List String) (hk : k ≠ "") :
    joinAll k p = joinDots (k :: p) := by
  induction p generalizing k with
  | nil => simp [joinAll, joinDots_single]
  | cons a p ih =>
      show joinAll (joinKey k a) p = _
      rw [joinKey_nonempty k a hk, joinDots_cons_cons]
      have hne : k ++ "." ++ a ≠ "" :=
        append_ne_empty_left _ _ (append_ne_empty_left _ _ hk)
      rw [ih _ hne]
      cases p with
      | nil => simp [joinDots_single]
      | cons b p2 =>
          rw [joinDots_cons_cons, joinDots_cons_cons a]
          apply String.ext
          simp [string_append_data, Char.toString]

theorem joinAll_empty_pre (k : String) (p : List String) (hk : k ≠ "") :
    joinAll "" (k :: p) = joinDots (k :: p) := by
  show joinAll (joinKey "" k) p = _
  rw [joinKey_empty]
  exact joinAll_nonempty_eq_joinDots k p hk

-- ---------------------------------------------------------------------------
-- Paths view of a Facts tree and basic spine lemmas
-- ---------------------------------------------------------------------------

mutual
/-- The leaves of a tree as (segment path, fact) pairs, in DFS order.
`iterFacts` is this view with the dot-joined keys. -/
def Facts.paths : Facts → List (List String × Fact)
  | .nil => []
  | .consE k v rest =>
      ((FactsValue.paths v).map fun pf => (k :: pf.1, pf.2)) ++ Facts.paths rest
def FactsValue.paths : FactsValue → List (List String × Fact)
  | .leaf f => [([], f)]
  | .group t => Facts.paths t
end

/-- Spine concatenation of two `Facts` containers (helper for stating
insertion lemmas; not a Python operation). -/
def Facts.append : Facts → Facts → Facts
  | .nil, u => u
  | .consE k v rest, u => .consE k v (rest.append u)

theorem Facts.append_nil : ∀ (t : Facts), t.append .nil = t
  | .nil => rfl
  | .consE k v rest => by simp [Facts.append, Facts.append_nil rest]

theorem Facts.append_assoc : ∀ (a b c : Facts),
    (a.append b).append c = a.append (b.append c)
  | .nil, _, _ => rfl
  | .consE k v rest, b, c => by simp [Facts.append, Facts.append_assoc rest b c]

theorem Facts.findKey_append : ∀ (a b : Facts) (k : String),
    (a.append b).findKey k =
      match a.findKey k with
      | some v => some v
      | none => b.findKey k
  | .nil, b, k => by simp [Facts.append, Facts.findKey]
  | .consE k2 v rest, b, k => by
      by_cases h : k2 = k
      · simp [Facts.append, Facts.findKey, h]
      · simp [Facts.append, Facts.findKey, h, Facts.findKey_append rest b k]

theorem Facts.setKey_absent : ∀ (t : Facts) (k : String) (v : FactsValue),
    t.findKey k = none → t.setKey k v = t.append (.consE k v .nil)
  | .nil, k, v, _ => rfl
  | .consE k2 v2 rest, k, v, h => by
      simp only [Facts.findKey] at h
      by_cases hk : k2 = k
      · simp [hk] at h
      · simp only [Facts.setKey, if_neg hk, Facts.append]
        rw [Facts.setKey_absent rest k v (by simpa [hk] using h)]

theorem Facts.setKey_setKey_same : ∀ (t : Facts) (k : String) (v w : FactsValue),
    (t.setKey k v).setKey k w = t.setKey k w
  | .nil, k, v, w => by simp [Facts.setKey]
  | .consE k2 v2 rest, k, v, w => by
      by_cases hk : k2 = k
      · simp [Facts.setKey, hk]
      · simp [Facts.setKey, hk, Facts.setKey_setKey_same rest k v w]

theorem Facts.findKey_setKey_self : ∀ (t : Facts) (k : String) (v : FactsValue),
    (t.setKey k v).findKey k = some v
  | .nil, k, v => by simp [Facts.setKey, Facts.findKey]
  | .consE k2 v2 rest, k, v => by
      by_cases hk : k2 = k
      · simp [Facts.setKey, Facts.findKey, hk]
      · simp [Facts.setKey, Facts.findKey, hk, Facts.findKey_setKey_self rest k v]

-- ---------------------------------------------------------------------------
-- iterFacts through the paths view
-- ---------------------------------------------------------------------------

mutual
theorem Facts.iterFacts_eq_paths : ∀ (t : Facts) (pre : String),
    t.iterFacts pre = t.paths.map fun pf => (joinAll pre pf.1, pf.2)
  | .nil, _ => by simp [Facts.iterFacts, Facts.paths]
  | .consE k v rest, pre => by
      rw [show Facts.iterFacts (.consE k v rest) pre
            = FactsValue.iterFacts v (joinKey pre k) ++ Facts.iterFacts rest pre from rfl]
      rw [FactsValue.iterFacts_eq_paths_val v (joinKey pre k),
        Facts.iterFacts_eq_paths rest pre]
      simp only [Facts.paths, List.map_append, List.map_map]
      have hfun : ((fun pf : List String × Fact => (joinAll pre pf.1, pf.2))
            ∘ fun pf : List String × Fact => (k :: pf.1, pf.2))
          = fun pf : List String × Fact => (joinAll (joinKey pre k) pf.1, pf.2) := by
        funext pf
        simp [Function.comp, joinAll]
      rw [hfun]
theorem FactsValue.iterFacts_eq_paths_val : ∀ (v : FactsValue) (fq : String),
    v.iterFacts fq = v.paths.map fun pf => (joinAll fq pf.1, pf.2)
  | .leaf f, fq => by simp [FactsValue.iterFacts, FactsValue.paths, joinAll]
  | .group t, fq => by
      rw [show FactsValue.iterFacts (.group t) fq = t.iterFacts fq from rfl]
      rw [show (FactsValue.group t).paths = t.paths from rfl]
      rw [Facts.iterFacts_eq_paths t fq]
end

-- ---------------------------------------------------------------------------
-- Shape predicates
-- ---------------------------------------------------------------------------

mutual
/-- The documented `Facts` class invariant (`types.py:84`): every mapping
key is identifier-like (nonempty, no dot), keys are unique at every level
(a Python dict), and each leaf satisfies `fact.key == mapping key`. -/
def Facts.legalB : Facts → Bool
  | .nil => true
  | .consE k v rest =>
      decide (validKey k) && !(decide (k ∈ rest.keys)) && FactsValue.legalB k v
        && Facts.legalB rest
def FactsValue.legalB : String → FactsValue → Bool
  | k, .leaf f => f.key = k
  | _, .group t => Facts.legalB t
end

mutual
/-- No empty subgroup anywhere in the tree. -/
def Facts.nonvacB : Facts → Bool
  | .nil => true
  | .consE _ v rest => FactsValue.nonvacB v && Facts.nonvacB rest
def FactsValue.nonvacB : FactsValue → Bool
  | .leaf _ => true
  | .group t => !(t matches .nil) && Facts.nonvacB t
end

mutual
theorem Facts.paths_ne_nil : ∀ (t : Facts), t ≠ .nil → t.nonvacB = true →
    t.paths ≠ []
  | .nil, hne, _ => absurd rfl hne
  | .consE k v rest, _, hnv => by
      have hv : FactsValue.nonvacB v = true := by
        simp [Facts.nonvacB, Bool.and_eq_true] at hnv
        exact hnv.1
      have := FactsValue.paths_ne_nil_val v hv
      simp only [Facts.paths]
      intro hcontra
      rcases List.append_eq_nil.mp hcontra with ⟨h1, _⟩
      exact this (List.map_eq_nil_iff.mp h1)
theorem FactsValue.paths_ne_nil_val : ∀ (v : FactsValue), v.nonvacB = true →
    v.paths ≠ []
  | .leaf f, _ => by simp [FactsValue.paths]
  | .group t, hnv => by
      cases t with
      | nil => simp [FactsValue.nonvacB] at hnv
      | consE k v rest =>
          have h2 : (Facts.consE k v rest).nonvacB = true := by
            simpa [FactsValue.nonvacB, Bool.and_eq_true] using hnv
          exact Facts.paths_ne_nil _ (by intro hc; cases hc) h2
end

mutual
theorem Facts.paths_shape : ∀ (t : Facts), t.legalB = true →
    ∀ pf ∈ t.paths, pf.1 ≠ [] ∧ ∀ seg ∈ pf.1, validKey seg
  | .nil, _, pf, hpf => by simp [Facts.paths] at hpf
  | .consE k v rest, hl, pf, hpf => by
      have hl2 : validKey k ∧ FactsValue.legalB k v = true ∧ Facts.legalB rest = true := by
        simp only [Facts.legalB, Bool.and_eq_true, decide_eq_true_eq] at hl
        exact ⟨hl.1.1.1, hl.1.2, hl.2⟩
      simp only [Facts.paths, List.mem_append, List.mem_map] at hpf
      rcases hpf with ⟨qf, hqf, rfl⟩ | hpf
      · refine ⟨by simp, ?_⟩
        intro seg hseg
        simp only at hseg
        rcases List.mem_cons.mp hseg with rfl | hseg
        · exact hl2.1
        · exact (FactsValue.paths_shape_val v k hl2.2.1 qf hqf seg hseg)
      · exact Facts.paths_shape rest hl2.2.2 pf hpf
theorem FactsValue.paths_shape_val : ∀ (v : FactsValue) (k : String),
    FactsValue.legalB k v = true →
    ∀ pf ∈ v.paths, ∀ seg ∈ pf.1, validKey seg
  | .leaf f, k, _, pf, hpf => by
      simp only [FactsValue.paths, List.mem_singleton] at hpf
      subst hpf
      intro seg hseg
      simp at hseg
  | .group t, k, hl, pf, hpf => by
      have := Facts.paths_shape t (by simpa [FactsValue.legalB] using hl) pf hpf
      exact this.2
end

-- ---------------------------------------------------------------------------
-- Insertion correctness: unflatten rebuilds the flattened tree
-- ---------------------------------------------------------------------------

/-- Folding `insertPath` over a list of (path, fact) pairs (the body of
`Facts.unflatten`, paths pre-split). -/
def insertAll (t : Facts) (l : List (List String × Fact)) : Except PyError Facts :=
  l.foldlM (fun t pf => insertPath t pf.1 pf.2) t

theorem unflatten_eq_insertAll (flat : List (String × Fact)) :
    Facts.unflatten flat = insertAll .nil (flat.map fun kf => (splitDots kf.1, kf.2)) := by
  unfold Facts.unflatten insertAll
  rw [List.foldlM_map]

/-- One descent step of `insertPath`: look up `k`, create or reuse the
group there, recurse, and write the updated group back. -/
def upd1 (t : Facts) (k : String) (h : Facts → Except PyError Facts) :
    Except PyError Facts :=
  match t.findKey k with
  | none => (h .nil).map fun s => t.setKey k (.group s)
  | some (.group s) => (h s).map fun s2 => t.setKey k (.group s2)
  | some (.leaf _) => .error .typeError

theorem insertPath_cons (t : Facts) (k : String) (p : List String) (f : Fact)
    (hp : p ≠ []) :
    insertPath t (k :: p) f = upd1 t k fun s => insertPath s p f := by
  cases p with
  | nil => exact absurd rfl hp
  | cons p1 p2 =>
      rw [show insertPath t (k :: p1 :: p2) f =
            (match t.findKey k with
             | none => do
                let sub ← insertPath .nil (p1 :: p2) f
                Except.ok (t.setKey k (.group sub))
             | some (.group s) => do
                let s2 ← insertPath s (p1 :: p2) f
                Except.ok (t.setKey k (.group s2))
             | some (.leaf _) => Except.error .typeError) from rfl]
      unfold upd1
      cases hfk : t.findKey k with
      | none =>
          cases hi : insertPath .nil (p1 :: p2) f <;>
            simp [hfk, hi, Except.map, Bind.bind, Except.bind]
      | some v =>
          cases v with
          | leaf g => simp [hfk]
          | group s =>
              cases hi : insertPath s (p1 :: p2) f <;>
                simp [hfk, hi, Except.map, Bind.bind, Except.bind]

theorem except_bind_ok (a : Facts) (f : Facts → Except PyError Facts) :
    (Except.ok a >>= f) = f a := rfl

theorem except_bind_err (e : PyError) (f : Facts → Except PyError Facts) :
    ((Except.error e : Except PyError Facts) >>= f) = Except.error e := rfl

theorem upd1_comp (t : Facts) (k : String)
    (h g : Facts → Except PyError Facts) :
    (upd1 t k h) >>= (fun t2 => upd1 t2 k g)
      = upd1 t k fun s => h s >>= g := by
  unfold upd1
  cases hfk : t.findKey k with
  | none =>
      cases hh : h .nil with
      | error e => simp [hh, Except.map, except_bind_err]
      | ok s =>
          simp only [hh, Except.map, except_bind_ok]
          rw [Facts.findKey_setKey_self]
          cases hg : g s with
      | error e => simp [hg, Except.map]
      | ok s2 => simp [hg, Except.map, Facts.setKey_setKey_same]
  | some v =>
      cases v with
      | leaf f => rfl
      | group s =>
          cases hh : h s with
          | error e => simp [hh, Except.map, except_bind_err]
          | ok s2 =>
              simp only [hh, Except.map, except_bind_ok]
              rw [Facts.findKey_setKey_self]
              cases hg : g s2 with
          | error e => simp [hg, Except.map]
          | ok s3 => simp [hg, Except.map, Facts.setKey_setKey_same]

theorem insertAll_cons (t : Facts) (pf : List String × Fact)
    (l : List (List String × Fact)) :
    insertAll t (pf :: l) = insertPath t pf.1 pf.2 >>= fun t2 => insertAll t2 l := rfl

theorem insertAll_nil (t : Facts) : insertAll t [] = .ok t := rfl

theorem insertAll_lift (k : String) (ps : List (List String × Fact))
    (hne : ps ≠ []) (hps : ∀ pf ∈ ps, pf.1 ≠ []) (t : Facts) :
    insertAll t (ps.map fun pf => (k :: pf.1, pf.2))
      = upd1 t k fun s => insertAll s ps := by
  induction ps generalizing t with
  | nil => exact absurd rfl hne
  | cons p ps ih =>
      cases ps with
      | nil =>
          simp only [List.map_cons, List.map_nil]
          rw [insertAll_cons]
          show insertPath t (k :: p.1) p.2 >>= (fun t2 => insertAll t2 []) = _
          have hp1 : p.1 ≠ [] := hps p (List.mem_cons_self _ _)
          rw [insertPath_cons t k p.1 p.2 hp1]
          have hfun : (fun s => insertAll s [p])
              = fun s => insertPath s p.1 p.2 >>= fun t2 => insertAll t2 [] := rfl
          rw [hfun]
          show upd1 t k (fun s => insertPath s p.1 p.2) >>= (fun t2 => pure t2) = _
          rw [bind_pure]
          unfold upd1
          cases hfk : t.findKey k with
          | none =>
              cases hi : insertPath .nil p.1 p.2 <;>
                simp [hi, insertAll_nil, except_bind_ok, except_bind_err]
          | some v =>
              cases v with
              | leaf g => rfl
              | group s =>
                  cases hi : insertPath s p.1 p.2 <;>
                    simp [hi, insertAll_nil, except_bind_ok, except_bind_err]
      | cons p2 ps2 =>
          simp only [List.map_cons]
          rw [insertAll_cons]
          simp only
          have hp1 : p.1 ≠ [] := hps p (List.mem_cons_self _ _)
          rw [insertPath_cons t k p.1 p.2 hp1]
          have hrest : ∀ pf ∈ p2 :: ps2, pf.1 ≠ [] := fun pf hpf =>
            hps pf (List.mem_cons_of_mem p hpf)
          have hihfun : (fun t2 => insertAll t2 ((p2 :: ps2).map fun pf => (k :: pf.1, pf.2)))
              = fun t2 => upd1 t2 k fun s => insertAll s (p2 :: ps2) := by
            funext t2
            exact ih (by simp) hrest t2
          rw [show ((p2.1.cons k, p2.2) :: List.map (fun pf => (k :: pf.1, pf.2)) ps2)
                = (p2 :: ps2).map fun pf => (k :: pf.1, pf.2) from by simp]
          rw [hihfun]
          rw [upd1_comp]
          have hfin : (fun s => insertPath s p.1 p.2 >>= fun s2 => insertAll s2 (p2 :: ps2))
              = fun s => insertAll s (p :: p2 :: ps2) := rfl
          rw [hfin]

mutual
/-- Keys are unique at every level of the tree. -/
def Facts.nodupB : Facts → Bool
  | .nil => true
  | .consE k v rest => !(decide (k ∈ rest.keys)) && FactsValue.nodupB v && rest.nodupB
def FactsValue.nodupB : FactsValue → Bool
  | .leaf _ => true
  | .group t => Facts.nodupB t
end

theorem Facts.paths_fst_ne_nil : ∀ (t : Facts), ∀ pf ∈ t.paths, pf.1 ≠ []
  | .nil => by simp [Facts.paths]
  | .consE k v rest => by
      intro pf hpf
      simp only [Facts.paths, List.mem_append, List.mem_map] at hpf
      rcases hpf with ⟨qf, _, rfl⟩ | hpf
      · simp
      · exact Facts.paths_fst_ne_nil rest pf hpf

mutual
theorem Facts.insertAll_paths : ∀ (t acc : Facts),
    t.nodupB = true → t.nonvacB = true →
    (∀ k ∈ t.keys, acc.findKey k = none) →
    insertAll acc t.paths = .ok (acc.append t)
  | .nil, acc, _, _, _ => by
      rw [show Facts.nil.paths = [] from rfl, insertAll_nil, Facts.append_nil]
  | .consE k v rest, acc, hnd, hnv, habs => by
      have hnd2 : (k ∈ rest.keys → False) ∧ FactsValue.nodupB v = true
          ∧ rest.nodupB = true := by
        simp only [Facts.nodupB, Bool.and_eq_true, Bool.not_eq_true',
          decide_eq_false_iff_not] at hnd
        exact ⟨hnd.1.1, hnd.1.2, hnd.2⟩
      have hnv2 : FactsValue.nonvacB v = true ∧ rest.nonvacB = true := by
        simpa [Facts.nonvacB, Bool.and_eq_true] using hnv
      rw [show (Facts.consE k v rest).paths
            = ((FactsValue.paths v).map fun pf => (k :: pf.1, pf.2)) ++ rest.paths
          from rfl]
      rw [show insertAll acc ((((FactsValue.paths v).map fun pf => (k :: pf.1, pf.2)))
              ++ rest.paths)
            = insertAll acc ((FactsValue.paths v).map fun pf => (k :: pf.1, pf.2))
                >>= fun t2 => insertAll t2 rest.paths from by
        unfold insertAll
        rw [List.foldlM_append]]
      rw [FactsValue.insertAll_paths_val v k acc hnd2.2.1 hnv2.1
        (habs k (by simp [Facts.keys]))]
      rw [show ((.ok (acc.append (.consE k v .nil)) : Except PyError Facts)
              >>= fun t2 => insertAll t2 rest.paths)
            = insertAll (acc.append (.consE k v .nil)) rest.paths from rfl]
      rw [Facts.insertAll_paths rest (acc.append (.consE k v .nil)) hnd2.2.2 hnv2.2 ?_]
      · rw [Facts.append_assoc]
        rfl
      · intro k2 hk2
        rw [Facts.findKey_append]
        have h1 : acc.findKey k2 = none := habs k2 (by simp [Facts.keys, hk2])
        have hkne : k ≠ k2 := by
          intro hkk
          subst hkk
          exact hnd2.1 hk2
        simp [h1, Facts.findKey, Facts.append, hkne]
theorem FactsValue.insertAll_paths_val : ∀ (v : FactsValue) (k : String) (acc : Facts),
    FactsValue.nodupB v = true → FactsValue.nonvacB v = true →
    acc.findKey k = none →
    insertAll acc ((FactsValue.paths v).map fun pf => (k :: pf.1, pf.2))
      = .ok (acc.append (.consE k v .nil))
  | .leaf f, k, acc, _, _, habs => by
      rw [show (FactsValue.paths (.leaf f)).map (fun pf => (k :: pf.1, pf.2))
            = [([k], f)] from rfl]
      rw [show insertAll acc [([k], f)]
            = insertPath acc [k] f >>= fun t2 => insertAll t2 [] from rfl]
      rw [show insertPath acc [k] f = .ok (acc.setKey k (.leaf f)) from rfl]
      rw [Facts.setKey_absent acc k (.leaf f) habs]
      rfl
  | .group t, k, acc, hnd, hnv, habs => by
      have ht : t ≠ .nil ∧ t.nonvacB = true := by
        cases t with
        | nil => simp [FactsValue.nonvacB] at hnv
        | consE k2 v2 rest2 =>
            refine ⟨fun hc => Facts.noConfusion hc, ?_⟩
            simpa [FactsValue.nonvacB] using hnv
      have hpne : t.paths ≠ [] := Facts.paths_ne_nil t ht.1 ht.2
      rw [show FactsValue.paths (.group t) = t.paths from rfl]
      rw [insertAll_lift k t.paths hpne (Facts.paths_fst_ne_nil t) acc]
      unfold upd1
      rw [habs]
      show Except.map (fun s => acc.setKey k (FactsValue.group s))
          (insertAll Facts.nil t.paths) = _
      rw [Facts.insertAll_paths t .nil (by simpa [FactsValue.nodupB] using hnd) ht.2
        (by intro k2 _; rfl)]
      show Except.ok (acc.setKey k (.group (Facts.append .nil t))) = _
      rw [show Facts.append .nil t = t from rfl]
      rw [Facts.setKey_absent acc k (.group t) habs]
end

mutual
theorem Facts.legal_nodup : ∀ t : Facts, t.legalB = true → t.nodupB = true
  | .nil, _ => rfl
  | .consE k v rest, hl => by
      simp only [Facts.legalB, Bool.and_eq_true] at hl
      simp only [Facts.nodupB, Bool.and_eq_true]
      exact ⟨⟨hl.1.1.2, FactsValue.legal_nodup_val k v hl.1.2⟩, Facts.legal_nodup rest hl.2⟩
theorem FactsValue.legal_nodup_val : ∀ (k : String) (v : FactsValue),
    FactsValue.legalB k v = true → FactsValue.nodupB v = true
  | _, .leaf f, _ => rfl
  | _, .group t, hl => Facts.legal_nodup t (by simpa [FactsValue.legalB] using hl)
end

/-- For a legal, non-vacuous tree, `unflatten` is a left inverse of
`flatten` (first half of the flatten/unflatten isomorphism). -/
theorem Facts.unflatten_flatten (t : Facts) (hl : t.legalB = true)
    (hnv : t.nonvacB = true) : Facts.unflatten t.flatten = .ok t := by
  rw [unflatten_eq_insertAll]
  have hflat : t.flatten = t.paths.map fun pf => (joinAll "" pf.1, pf.2) :=
    Facts.iterFacts_eq_paths t ""
  rw [hflat, List.map_map]
  have hmap : t.paths.map ((fun kf : String × Fact => (splitDots kf.1, kf.2))
        ∘ fun pf : List String × Fact => (joinAll "" pf.1, pf.2)) = t.paths := by
    rw [show t.paths = t.paths.map id from (List.map_id t.paths).symm]
    rw [List.map_map]
    apply List.map_congr_left
    intro pf hpf
    simp only [id_eq, List.map_id] at hpf ⊢
    have hshape := Facts.paths_shape t hl pf hpf
    cases hp : pf.1 with
    | nil => exact absurd hp hshape.1
    | cons k p =>
        have hvalid : ∀ seg ∈ k :: p, validKey seg := by
          rw [← hp]; exact hshape.2
        have hk : k ≠ "" := (hvalid k (by simp)).1
        have hdf : ∀ seg ∈ k :: p, '.' ∉ seg.data := fun seg hseg => (hvalid seg hseg).2
        show (splitDots (joinAll "" pf.1), pf.2) = pf
        rw [hp, joinAll_empty_pre k p hk, splitDots_joinDots (k :: p) (by simp) hdf]
        rw [← hp]
  rw [hmap]
  rw [Facts.insertAll_paths t .nil (Facts.legal_nodup t hl) hnv (by intro k _; rfl)]
  rfl

-- ---------------------------------------------------------------------------
-- Serialize / deserialize round trip
-- ---------------------------------------------------------------------------

mutual
/-- The tree with every leaf fact replaced by its base-class copy: this is
what a serialize/deserialize round trip reconstructs (the `Fact` subclass
tag is not serialized). -/
def Facts.baseify : Facts → Facts
  | .nil => .nil
  | .consE k v rest => .consE k v.baseify rest.baseify
def FactsValue.baseify : FactsValue → FactsValue
  | .leaf f => .leaf { f with factType := .base }
  | .group t => .group t.baseify
end

mutual
theorem Facts.serializeWalk_eq : ∀ (t : Facts) (pre : String),
    t.serializeWalk pre = (t.iterFacts pre).map fun kf => (kf.1, kf.2.serialize)
  | .nil, _ => rfl
  | .consE k v rest, pre => by
      rw [show (Facts.consE k v rest).serializeWalk pre
            = FactsValue.serializeWalk v (joinKey pre k) ++ rest.serializeWalk pre
          from rfl]
      rw [show (Facts.consE k v rest).iterFacts pre
            = FactsValue.iterFacts v (joinKey pre k) ++ rest.iterFacts pre from rfl]
      rw [FactsValue.serializeWalk_eq_val v (joinKey pre k),
        Facts.serializeWalk_eq rest pre, List.map_append]
theorem FactsValue.serializeWalk_eq_val : ∀ (v : FactsValue) (fq : String),
    v.serializeWalk fq = (v.iterFacts fq).map fun kf => (kf.1, kf.2.serialize)
  | .leaf f, fq => rfl
  | .group t, fq => Facts.serializeWalk_eq t fq
end

mutual
theorem Facts.baseify_iterFacts : ∀ (t : Facts) (pre : String),
    t.baseify.iterFacts pre
      = (t.iterFacts pre).map fun kf => (kf.1, Fact.deserialize kf.2.serialize)
  | .nil, _ => rfl
  | .consE k v rest, pre => by
      rw [show (Facts.consE k v rest).baseify
            = .consE k v.baseify rest.baseify from rfl]
      rw [show (Facts.consE k v.baseify rest.baseify).iterFacts pre
            = FactsValue.iterFacts v.baseify (joinKey pre k)
                ++ rest.baseify.iterFacts pre from rfl]
      rw [show (Facts.consE k v rest).iterFacts pre
            = FactsValue.iterFacts v (joinKey pre k) ++ rest.iterFacts pre from rfl]
      rw [FactsValue.baseify_iterFacts_val v (joinKey pre k),
        Facts.baseify_iterFacts rest pre, List.map_append]
theorem FactsValue.baseify_iterFacts_val : ∀ (v : FactsValue) (fq : String),
    v.baseify.iterFacts fq
      = (v.iterFacts fq).map fun kf => (kf.1, Fact.deserialize kf.2.serialize)
  | .leaf f, fq => rfl
  | .group t, fq => Facts.baseify_iterFacts t fq
end

mutual
theorem Facts.baseify_legal : ∀ t : Facts, t.legalB = true → t.baseify.legalB = true
  | .nil, _ => rfl
  | .consE k v rest, hl => by
      simp only [Facts.legalB, Bool.and_eq_true] at hl
      have hkeys : rest.baseify.keys = rest.keys := Facts.baseify_keys rest
      simp only [Facts.baseify, Facts.legalB, Bool.and_eq_true, hkeys]
      exact ⟨⟨⟨hl.1.1.1, hl.1.1.2⟩, FactsValue.baseify_legal_val k v hl.1.2⟩,
        Facts.baseify_legal rest hl.2⟩
theorem FactsValue.baseify_legal_val : ∀ (k : String) (v : FactsValue),
    FactsValue.legalB k v = true → FactsValue.legalB k v.baseify = true
  | k, .leaf f, hl => by
      simpa [FactsValue.baseify, FactsValue.legalB] using hl
  | k, .group t, hl =>
      Facts.baseify_legal t (by simpa [FactsValue.legalB] using hl)
theorem Facts.baseify_keys : ∀ t : Facts, t.baseify.keys = t.keys
  | .nil => rfl
  | .consE k v rest => by
      rw [show (Facts.consE k v rest).baseify = .consE k v.baseify rest.baseify from rfl]
      rw [show (Facts.consE k v.baseify rest.baseify).keys
            = k :: rest.baseify.keys from rfl]
      rw [Facts.baseify_keys rest]
      rfl
end

mutual
theorem Facts.baseify_nonvac : ∀ t : Facts, t.nonvacB = true → t.baseify.nonvacB = true
  | .nil, _ => rfl
  | .consE k v rest, hnv => by
      simp only [Facts.nonvacB, Bool.and_eq_true] at hnv
      simp only [Facts.baseify, Facts.nonvacB, Bool.and_eq_true]
      exact ⟨FactsValue.baseify_nonvac_val v hnv.1, Facts.baseify_nonvac rest hnv.2⟩
theorem FactsValue.baseify_nonvac_val : ∀ v : FactsValue,
    FactsValue.nonvacB v = true → FactsValue.nonvacB v.baseify = true
  | .leaf f, _ => rfl
  | .group t, hnv => by
      cases t with
      | nil => simp [FactsValue.nonvacB] at hnv
      | consE k v rest =>
          have h2 : (Facts.consE k v rest).nonvacB = true := by
            simpa [FactsValue.nonvacB] using hnv
          simp only [FactsValue.baseify, FactsValue.nonvacB, Facts.baseify,
            Bool.and_eq_true]
          exact ⟨rfl, Facts.baseify_nonvac _ h2⟩
end

mutual
/-- Equality of `Facts` trees "structurally and by fact value/scope": the
same nesting with the same mapping keys, leaves agreeing on key, value and
scope (the Python subclass tag is ignored). -/
def Facts.eqVS : Facts → Facts → Bool
  | .nil, .nil => true
  | .consE k v r, .consE k2 v2 r2 =>
      k = k2 && FactsValue.eqVS v v2 && Facts.eqVS r r2
  | _, _ => false
def FactsValue.eqVS : FactsValue → FactsValue → Bool
  | .leaf f, .leaf g => f.key = g.key && f.value = g.value && f.scope = g.scope
  | .group t, .group u => Facts.eqVS t u
  | _, _ => false
end

mutual
theorem Facts.baseify_eqVS : ∀ t : Facts, Facts.eqVS t.baseify t = true
  | .nil => rfl
  | .consE k v rest => by
      simp only [Facts.baseify, Facts.eqVS, Bool.and_eq_true]
      exact ⟨⟨by simp, FactsValue.baseify_eqVS_val v⟩, Facts.baseify_eqVS rest⟩
theorem FactsValue.baseify_eqVS_val : ∀ v : FactsValue,
    FactsValue.eqVS v.baseify v = true
  | .leaf f => by simp [FactsValue.baseify, FactsValue.eqVS]
  | .group t => by
      simpa [FactsValue.baseify, FactsValue.eqVS] using Facts.baseify_eqVS t
end

/-- For a legal, non-vacuous tree, deserialize ∘ serialize reconstructs
the tree with all leaves at the base `Fact` class. -/
theorem Facts.deserialize_serialize (t : Facts) (hl : t.legalB = true)
    (hnv : t.nonvacB = true) : Facts.deserialize t.serialize = .ok t.baseify := by
  unfold Facts.deserialize
  rw [show t.serialize = t.serializeWalk "" from rfl]
  rw [Facts.serializeWalk_eq t "", List.map_map]
  have hbase : t.flatten.map ((fun kd : String × SerializedFact => (kd.1, Fact.deserialize kd.2))
        ∘ fun kf : String × Fact => (kf.1, kf.2.serialize)) = t.baseify.flatten := by
    rw [show t.baseify.flatten = t.baseify.iterFacts "" from rfl,
      Facts.baseify_iterFacts t ""]
    rfl
  rw [show t.iterFacts "" = t.flatten from rfl, hbase]
  exact Facts.unflatten_flatten t.baseify (Facts.baseify_legal t hl)
    (Facts.baseify_nonvac t hnv)

-- ---------------------------------------------------------------------------
-- Lookup machinery for the reverse round trip (flatten after unflatten)
-- ---------------------------------------------------------------------------

/-- First-match association lookup on a flat list (Python dict lookup;
keys are unique in a dict, so first match is the match). -/
def lookupFlat {α : Type} : List (String × α) → String → Option α
  | [], _ => none
  | (k, a) :: rest, key => if k = key then some a else lookupFlat rest key

/-- Path lookup in a `Facts` tree: the leaf fact reached by descending
through groups along the segments. -/
def Facts.lookPath : Facts → List String → Option Fact
  | _, [] => none
  | t, [k] =>
      match t.findKey k with
      | some (.leaf f) => some f
      | _ => none
  | t, k :: q1 :: q2 =>
      match t.findKey k with
      | some (.group s) => s.lookPath (q1 :: q2)
      | _ => none

/-- `pathBelow p q`: the segment list `p` is an initial segment of `q`. -/
def pathBelow : List String → List String → Bool
  | [], _ => true
  | _ :: _, [] => false
  | a :: p, b :: q => a = b && pathBelow p q

theorem splitCh_dotfree_out : ∀ (cs : List Char), ∀ g ∈ splitCh cs, '.' ∉ g := by
  intro cs
  induction cs with
  | nil =>
      intro g hg
      simp only [splitCh, List.mem_singleton] at hg
      simp [hg]
  | cons c rest ih =>
      intro g hg
      by_cases hc : c = '.'
      · subst hc
        rw [splitCh_dot] at hg
        rcases List.mem_cons.mp hg with rfl | hg
        · simp
        · exact ih g hg
      · rw [splitCh_nondot c hc] at hg
        cases hs : splitCh rest with
        | nil => exact absurd hs (splitCh_ne_nil rest)
        | cons h0 t0 =>
            rw [hs] at hg
            simp only [List.headD_cons, List.tail_cons] at hg
            rcases List.mem_cons.mp hg with rfl | hg
            · intro hmem
              rcases List.mem_cons.mp hmem with heq | hmem
              · exact hc heq.symm
              · exact ih h0 (hs ▸ List.mem_cons_self h0 t0) hmem
            · exact ih g (hs ▸ List.mem_cons_of_mem h0 hg)

theorem splitDots_dotfree (s : String) : ∀ seg ∈ splitDots s, '.' ∉ seg.data := by
  intro seg hseg
  simp only [splitDots, List.mem_map] at hseg
  obtain ⟨g, hg, rfl⟩ := hseg
  exact splitCh_dotfree_out s.data g hg

theorem joinDots_splitDots (s : String) : joinDots (splitDots s) = s := by
  apply String.ext
  show joinCh ((List.map String.mk (splitCh s.data)).map String.data) = s.data
  rw [List.map_map]
  have : (String.data ∘ String.mk) = id := by
    funext cs; rfl
  rw [this, List.map_id]
  exact joinCh_splitCh s.data

theorem splitDots_injective {a b : String} (h : splitDots a = splitDots b) : a = b := by
  have := congrArg joinDots h
  rwa [joinDots_splitDots, joinDots_splitDots] at this

mutual
/-- Tree-level key sanity for unflatten results: every mapping key at
every level is nonempty and dot-free, and keys are unique per level. -/
def Facts.keysOKB : Facts → Bool
  | .nil => true
  | .consE k v rest =>
      decide (validKey k) && !(decide (k ∈ rest.keys)) && FactsValue.keysOKB v
        && rest.keysOKB
def FactsValue.keysOKB : FactsValue → Bool
  | .leaf _ => true
  | .group t => Facts.keysOKB t
end

mutual
theorem Facts.keysOK_paths_shape : ∀ (t : Facts), t.keysOKB = true →
    ∀ pf ∈ t.paths, pf.1 ≠ [] ∧ ∀ seg ∈ pf.1, validKey seg
  | .nil, _, pf, hpf => by simp [Facts.paths] at hpf
  | .consE k v rest, hl, pf, hpf => by
      have hl2 : validKey k ∧ FactsValue.keysOKB v = true ∧ rest.keysOKB = true := by
        simp only [Facts.keysOKB, Bool.and_eq_true, decide_eq_true_eq] at hl
        exact ⟨hl.1.1.1, hl.1.2, hl.2⟩
      simp only [Facts.paths, List.mem_append, List.mem_map] at hpf
      rcases hpf with ⟨qf, hqf, rfl⟩ | hpf
      · refine ⟨by simp, ?_⟩
        intro seg hseg
        simp only at hseg
        rcases List.mem_cons.mp hseg with rfl | hseg
        · exact hl2.1
        · exact FactsValue.keysOK_paths_shape_val v hl2.2.1 qf hqf seg hseg
      · exact Facts.keysOK_paths_shape rest hl2.2.2 pf hpf
theorem FactsValue.keysOK_paths_shape_val : ∀ (v : FactsValue),
    FactsValue.keysOKB v = true →
    ∀ pf ∈ v.paths, ∀ seg ∈ pf.1, validKey seg
  | .leaf f, _, pf, hpf => by
      simp only [FactsValue.paths, List.mem_singleton] at hpf
      subst hpf
      intro seg hseg
      simp at hseg
  | .group t, hl, pf, hpf =>
      (Facts.keysOK_paths_shape t (by simpa [FactsValue.keysOKB] using hl) pf hpf).2
end

/-- First matching path in a paths list. -/
def lookupPaths : List (List String × Fact) → List String → Option Fact
  | [], _ => none
  | (p, f) :: rest, q => if p = q then some f else lookupPaths rest q

theorem lookupPaths_mem {ps : List (List String × Fact)} {q : List String} {f : Fact}
    (hf : lookupPaths ps q = some f) : (q, f) ∈ ps := by
  induction ps with
  | nil => simp [lookupPaths] at hf
  | cons pf rest ih =>
      cases pf with
      | mk p1 f1 =>
          by_cases hpf : p1 = q
          · simp only [lookupPaths, if_pos hpf, Option.some.injEq] at hf
            subst hpf
            subst hf
            exact List.mem_cons_self _ _
          · exact List.mem_cons_of_mem _ (ih (by simpa [lookupPaths, hpf] using hf))

theorem lookupPaths_append (l1 l2 : List (List String × Fact)) (q : List String) :
    lookupPaths (l1 ++ l2) q =
      match lookupPaths l1 q with
      | some f => some f
      | none => lookupPaths l2 q := by
  induction l1 with
  | nil => simp [lookupPaths]
  | cons pf rest ih =>
      by_cases h : pf.1 = q
      · cases pf
        simp_all [lookupPaths]
      · cases pf
        simp_all [lookupPaths]

theorem lookupPaths_prefixed_same (k : String) (ps : List (List String × Fact))
    (q : List String) :
    lookupPaths (ps.map fun pf => (k :: pf.1, pf.2)) (k :: q) = lookupPaths ps q := by
  induction ps with
  | nil => rfl
  | cons pf rest ih =>
      simp only [List.map_cons, lookupPaths]
      by_cases hpf : pf.1 = q
      · rw [if_pos (by rw [hpf]), if_pos hpf]
      · rw [if_neg (by simp [hpf]), if_neg hpf, ih]

theorem lookupPaths_prefixed_other (k q0 : String) (hne : q0 ≠ k)
    (ps : List (List String × Fact)) (q2 : List String) :
    lookupPaths (ps.map fun pf => (k :: pf.1, pf.2)) (q0 :: q2) = none := by
  induction ps with
  | nil => rfl
  | cons pf rest ih =>
      have hcond : ¬(k :: pf.1 = q0 :: q2) := by
        intro hcontra
        injection hcontra with h1 _
        exact hne h1.symm
      simp only [List.map_cons, lookupPaths]
      rw [if_neg hcond, ih]

theorem lookupPaths_prefixed_nil (k : String) (ps : List (List String × Fact)) :
    lookupPaths (ps.map fun pf => (k :: pf.1, pf.2)) [] = none := by
  induction ps with
  | nil => rfl
  | cons pf rest ih => simpa [lookupPaths] using ih

theorem lookupPaths_nil_of_ne_nil (ps : List (List String × Fact))
    (h : ∀ pf ∈ ps, pf.1 ≠ []) : lookupPaths ps [] = none := by
  induction ps with
  | nil => rfl
  | cons pf rest ih =>
      simp only [lookupPaths]
      rw [if_neg (h pf (List.mem_cons_self _ _))]
      exact ih fun qf hqf => h qf (List.mem_cons_of_mem pf hqf)

theorem lookupFlat_join_eq_lookupPaths (ps : List (List String × Fact))
    (hshape : ∀ pf ∈ ps, pf.1 ≠ [] ∧ ∀ seg ∈ pf.1, validKey seg) (key : String) :
    lookupFlat (ps.map fun pf => (joinAll "" pf.1, pf.2)) key
      = lookupPaths ps (splitDots key) := by
  induction ps with
  | nil => rfl
  | cons pf rest ih =>
      have hpf := hshape pf (List.mem_cons_self _ _)
      have hjoin : joinAll "" pf.1 = joinDots pf.1 := by
        cases hp : pf.1 with
        | nil => exact absurd hp hpf.1
        | cons k p =>
            exact joinAll_empty_pre k p (hpf.2 k (by rw [hp]; simp)).1
      have hdf : ∀ seg ∈ pf.1, '.' ∉ seg.data := fun seg hseg => (hpf.2 seg hseg).2
      simp only [List.map_cons, lookupFlat, lookupPaths]
      by_cases hkey : joinAll "" pf.1 = key
      · have hsplit : splitDots key = pf.1 := by
          rw [← hkey, hjoin, splitDots_joinDots pf.1 hpf.1 hdf]
        rw [if_pos hkey, if_pos hsplit.symm]
      · have hsplit : pf.1 ≠ splitDots key := by
          intro hcontra
          apply hkey
          rw [hjoin, hcontra, joinDots_splitDots]
        rw [if_neg hkey, if_neg hsplit]
        exact ih fun qf hqf => hshape qf (List.mem_cons_of_mem pf hqf)

theorem lookupFlat_flatten_eq_lookupPaths (t : Facts) (hok : t.keysOKB = true)
    (key : String) :
    lookupFlat t.flatten key = lookupPaths t.paths (splitDots key) := by
  have hflat : t.flatten = t.paths.map fun pf => (joinAll "" pf.1, pf.2) :=
    Facts.iterFacts_eq_paths t ""
  rw [hflat]
  exact lookupFlat_join_eq_lookupPaths t.paths (Facts.keysOK_paths_shape t hok) key

theorem Facts.paths_key_mem : ∀ (t : Facts) (pf : List String × Fact), pf ∈ t.paths →
    pf.1.headD "" ∈ t.keys
  | .nil, pf, hpf => by simp [Facts.paths] at hpf
  | .consE k v rest, pf, hpf => by
      simp only [Facts.paths, List.mem_append, List.mem_map] at hpf
      rcases hpf with ⟨qf, hqf, rfl⟩ | hpf
      · simp [Facts.keys]
      · exact List.mem_cons_of_mem k (Facts.paths_key_mem rest pf hpf)

mutual
theorem Facts.lookupPaths_eq_lookPath : ∀ (t : Facts), t.keysOKB = true →
    ∀ q, lookupPaths t.paths q = t.lookPath q
  | .nil, _, q => by
      cases q with
      | nil => rfl
      | cons a q2 => cases q2 <;> rfl
  | .consE k v rest, hok, q => by
      have hok2 : (k ∈ rest.keys → False) ∧ FactsValue.keysOKB v = true
          ∧ rest.keysOKB = true := by
        simp only [Facts.keysOKB, Bool.and_eq_true, Bool.not_eq_true',
          decide_eq_false_iff_not, decide_eq_true_eq] at hok
        exact ⟨hok.1.1.2, hok.1.2, hok.2⟩
      rw [show (Facts.consE k v rest).paths
            = ((FactsValue.paths v).map fun pf => (k :: pf.1, pf.2)) ++ rest.paths
          from rfl]
      rw [lookupPaths_append]
      cases q with
      | nil =>
          rw [lookupPaths_prefixed_nil]
          rw [Facts.lookupPaths_eq_lookPath rest hok2.2.2 []]
          rfl
      | cons q0 q2 =>
          by_cases hq0 : q0 = k
          · subst hq0
            have hrest : rest.lookPath (q0 :: q2) = none := by
              rw [← Facts.lookupPaths_eq_lookPath rest hok2.2.2]
              cases hl : lookupPaths rest.paths (q0 :: q2) with
              | none => rfl
              | some f =>
                  have hmem := lookupPaths_mem hl
                  have := Facts.paths_key_mem rest (q0 :: q2, f) hmem
                  simp only [List.headD_cons] at this
                  exact absurd this hok2.1
            rw [lookupPaths_prefixed_same]
            rw [Facts.lookupPaths_eq_lookPath rest hok2.2.2 (q0 :: q2), hrest]
            have hfind : (Facts.consE q0 v rest).findKey q0 = some v := by
              simp [Facts.findKey]
            cases v with
            | leaf f =>
                cases q2 with
                | nil =>
                    show (match (some f : Option Fact) with
                          | some g => some g
                          | none => none)
                        = Facts.lookPath (.consE q0 (.leaf f) rest) [q0]
                    rw [show Facts.lookPath (.consE q0 (.leaf f) rest) [q0]
                          = (match (Facts.consE q0 (.leaf f) rest).findKey q0 with
                             | some (.leaf g) => some g
                             | _ => none) from rfl]
                    rw [hfind]
                | cons q1 q3 =>
                    show (match lookupPaths [(([] : List String), f)] (q1 :: q3) with
                          | some g => some g
                          | none => none)
                        = Facts.lookPath (.consE q0 (.leaf f) rest) (q0 :: q1 :: q3)
                    rw [show Facts.lookPath (.consE q0 (.leaf f) rest) (q0 :: q1 :: q3)
                          = (match (Facts.consE q0 (.leaf f) rest).findKey q0 with
                             | some (.group s) => s.lookPath (q1 :: q3)
                             | _ => none) from rfl]
                    rw [hfind]
                    rfl
            | group s =>
                have hsok : s.keysOKB = true := by
                  simpa [FactsValue.keysOKB] using hok2.2.1
                cases q2 with
                | nil =>
                    rw [show FactsValue.paths (.group s) = s.paths from rfl]
                    rw [lookupPaths_nil_of_ne_nil s.paths (Facts.paths_fst_ne_nil s)]
                    rw [show Facts.lookPath (.consE q0 (.group s) rest) [q0]
                          = (match (Facts.consE q0 (.group s) rest).findKey q0 with
                             | some (.leaf g) => some g
                             | _ => none) from rfl]
                    rw [hfind]
                | cons q1 q3 =>
                    rw [show FactsValue.paths (.group s) = s.paths from rfl]
                    rw [Facts.lookupPaths_eq_lookPath s hsok (q1 :: q3)]
                    rw [show Facts.lookPath (.consE q0 (.group s) rest) (q0 :: q1 :: q3)
                          = (match (Facts.consE q0 (.group s) rest).findKey q0 with
                             | some (.group u) => u.lookPath (q1 :: q3)
                             | _ => none) from rfl]
                    rw [hfind]
                    show (match s.lookPath (q1 :: q3) with
                          | some g => some g
                          | none => none) = s.lookPath (q1 :: q3)
                    cases s.lookPath (q1 :: q3) <;> rfl
          · rw [lookupPaths_prefixed_other k q0 hq0]
            rw [Facts.lookupPaths_eq_lookPath rest hok2.2.2 (q0 :: q2)]
            have hfind : (Facts.consE k v rest).findKey q0 = rest.findKey q0 := by
              have hkq : k ≠ q0 := fun h => hq0 h.symm
              simp [Facts.findKey, hkq]
            cases q2 with
            | nil =>
                show rest.lookPath [q0] = Facts.lookPath (.consE k v rest) [q0]
                rw [show Facts.lookPath (.consE k v rest) [q0]
                      = (match (Facts.consE k v rest).findKey q0 with
                         | some (.leaf g) => some g
                         | _ => none) from rfl]
                rw [hfind]
                rfl
            | cons q1 q3 =>
                show rest.lookPath (q0 :: q1 :: q3)
                    = Facts.lookPath (.consE k v rest) (q0 :: q1 :: q3)
                rw [show Facts.lookPath (.consE k v rest) (q0 :: q1 :: q3)
                      = (match (Facts.consE k v rest).findKey q0 with
                         | some (.group s) => s.lookPath (q1 :: q3)
                         | _ => none) from rfl]
                rw [hfind]
                rfl
end


theorem Facts.findKey_setKey_other : ∀ (t : Facts) (k : String) (v : FactsValue)
    (k2 : String), k2 ≠ k → (t.setKey k v).findKey k2 = t.findKey k2
  | .nil, k, v, k2, hne => by
      have hk : ¬ k = k2 := fun h => hne h.symm
      simp [Facts.setKey, Facts.findKey, hk]
  | .consE k0 v0 rest, k, v, k2, hne => by
      by_cases hk0 : k0 = k
      · subst hk0
        have hk : ¬ k0 = k2 := fun h => hne h.symm
        simp [Facts.setKey, Facts.findKey, hk]
      · simp only [Facts.setKey, if_neg hk0]
        by_cases hk02 : k0 = k2
        · simp [Facts.findKey, hk02]
        · simp [Facts.findKey, hk02, Facts.findKey_setKey_other rest k v k2 hne]

theorem Facts.lookPath_nil_tree : ∀ q : List String, Facts.nil.lookPath q = none
  | [] => rfl
  | [_] => rfl
  | _ :: _ :: _ => rfl

theorem Facts.lookPath_cons_eq (t : Facts) (q0 : String) (qt : List String) :
    t.lookPath (q0 :: qt) =
      match t.findKey q0, qt with
      | some (.leaf f), [] => some f
      | some (.group s), (q1 :: q2) => s.lookPath (q1 :: q2)
      | _, _ => none := by
  cases qt with
  | nil =>
      show (match t.findKey q0 with
            | some (.leaf f) => some f
            | _ => none) = _
      cases hfk : t.findKey q0 with
      | none => rfl
      | some v => cases v <;> rfl
  | cons q1 q2 =>
      show (match t.findKey q0 with
            | some (.group s) => s.lookPath (q1 :: q2)
            | _ => none) = _
      cases hfk : t.findKey q0 with
      | none => rfl
      | some v => cases v <;> rfl

theorem Facts.lookPath_head_congr (t2 t : Facts) (q0 : String) (qt : List String)
    (h : t2.findKey q0 = t.findKey q0) :
    t2.lookPath (q0 :: qt) = t.lookPath (q0 :: qt) := by
  rw [Facts.lookPath_cons_eq, Facts.lookPath_cons_eq, h]

theorem pathBelow_cons_same (a : String) (p q : List String) :
    pathBelow (a :: p) (a :: q) = pathBelow p q := by
  simp [pathBelow]

theorem pathBelow_nil_left (q : List String) : pathBelow [] q = true := rfl

/-- Inserting a fresh, non-overlapping path into a tree succeeds and
changes exactly that path of the lookup function. -/
theorem insertPath_sim : ∀ (p : List String) (t : Facts) (f : Fact),
    p ≠ [] →
    (∀ q g, pathBelow q p = true → q ≠ p → t.lookPath q ≠ some g) →
    (∀ q g, pathBelow p q = true → q ≠ p → t.lookPath q ≠ some g) →
    ∃ t2, insertPath t p f = .ok t2 ∧
      ∀ q, t2.lookPath q = if q = p then some f else t.lookPath q
  | [], _, _, hne, _, _ => absurd rfl hne
  | [last], t, f, _, _, hyp2 => by
      refine ⟨t.setKey last (.leaf f), rfl, ?_⟩
      intro q
      cases q with
      | nil => simp [Facts.lookPath]
      | cons q0 qt =>
          by_cases hq0 : q0 = last
          · subst hq0
            cases qt with
            | nil =>
                rw [if_pos rfl, Facts.lookPath_cons_eq, Facts.findKey_setKey_self]
            | cons q1 q2 =>
                rw [if_neg (by simp), Facts.lookPath_cons_eq, Facts.findKey_setKey_self]
                have hbelow : pathBelow [q0] (q0 :: q1 :: q2) = true := by
                  simp [pathBelow]
                cases hlk : t.lookPath (q0 :: q1 :: q2) with
                | none => rfl
                | some g => exact absurd hlk (hyp2 _ g hbelow (by simp))
          · rw [if_neg (by simp [hq0])]
            exact Facts.lookPath_head_congr _ _ _ _
              (Facts.findKey_setKey_other t last (.leaf f) q0 hq0)
  | k :: p1 :: p2, t, f, _, hyp1, hyp2 => by
      have hptne : (p1 :: p2 : List String) ≠ [] := by simp
      cases hfk : t.findKey k with
      | some v =>
          cases v with
          | leaf g =>
              exfalso
              have hlk : t.lookPath [k] = some g := by
                rw [Facts.lookPath_cons_eq, hfk]
              have hbelow : pathBelow [k] (k :: p1 :: p2) = true := by
                simp [pathBelow]
              exact hyp1 [k] g hbelow (by simp) hlk
          | group s =>
              have ihhyp1 : ∀ q g, pathBelow q (p1 :: p2) = true → q ≠ p1 :: p2 →
                  s.lookPath q ≠ some g := by
                intro q g hb hne hlk
                cases q with
                | nil => rw [Facts.lookPath] at hlk; cases hlk
                | cons q0 qt =>
                    have hlk2 : t.lookPath (k :: q0 :: qt) = some g := by
                      rw [Facts.lookPath_cons_eq, hfk]
                      exact hlk
                    exact hyp1 (k :: q0 :: qt) g
                      (by rw [pathBelow_cons_same]; exact hb)
                      (by simpa using hne) hlk2
              have ihhyp2 : ∀ q g, pathBelow (p1 :: p2) q = true → q ≠ p1 :: p2 →
                  s.lookPath q ≠ some g := by
                intro q g hb hne hlk
                cases q with
                | nil => simp [pathBelow] at hb
                | cons q0 qt =>
                    have hlk2 : t.lookPath (k :: q0 :: qt) = some g := by
                      rw [Facts.lookPath_cons_eq, hfk]
                      exact hlk
                    exact hyp2 (k :: q0 :: qt) g
                      (by rw [pathBelow_cons_same]; exact hb)
                      (by simpa using hne) hlk2
              obtain ⟨s2, hs2, hs2look⟩ :=
                insertPath_sim (p1 :: p2) s f hptne ihhyp1 ihhyp2
              refine ⟨t.setKey k (.group s2), ?_, ?_⟩
              · rw [show insertPath t (k :: p1 :: p2) f =
                      (match t.findKey k with
                       | none => do
                          let sub ← insertPath .nil (p1 :: p2) f
                          Except.ok (t.setKey k (.group sub))
                       | some (.group s) => do
                          let s2 ← insertPath s (p1 :: p2) f
                          Except.ok (t.setKey k (.group s2))
                       | some (.leaf _) => Except.error .typeError) from rfl]
                rw [hfk]
                show (do
                    let s3 ← insertPath s (p1 :: p2) f
                    Except.ok (t.setKey k (.group s3))) = _
                rw [hs2]
                rfl
              · intro q
                cases q with
                | nil => simp [Facts.lookPath]
                | cons q0 qt =>
                    by_cases hq0 : q0 = k
                    · subst hq0
                      cases qt with
                      | nil =>
                          rw [if_neg (by simp), Facts.lookPath_cons_eq,
                            Facts.findKey_setKey_self, Facts.lookPath_cons_eq, hfk]
                      | cons q1 q2 =>
                          rw [Facts.lookPath_cons_eq, Facts.findKey_setKey_self]
                          show s2.lookPath (q1 :: q2) = _
                          rw [hs2look (q1 :: q2)]
                          rw [show t.lookPath (q0 :: q1 :: q2) = s.lookPath (q1 :: q2)
                              from by rw [Facts.lookPath_cons_eq, hfk]]
                          by_cases hqp : (q1 :: q2 : List String) = p1 :: p2
                          · rw [if_pos hqp, if_pos (by rw [hqp])]
                          · rw [if_neg hqp, if_neg (by simpa using hqp)]
                    · rw [if_neg (by simp [hq0])]
                      exact Facts.lookPath_head_congr _ _ _ _
                        (Facts.findKey_setKey_other t k (.group s2) q0 hq0)
      | none =>
          obtain ⟨s2, hs2, hs2look⟩ :=
            insertPath_sim (p1 :: p2) .nil f hptne
              (fun q g _ _ hlk => by rw [Facts.lookPath_nil_tree] at hlk; cases hlk)
              (fun q g _ _ hlk => by rw [Facts.lookPath_nil_tree] at hlk; cases hlk)
          refine ⟨t.setKey k (.group s2), ?_, ?_⟩
          · rw [show insertPath t (k :: p1 :: p2) f =
                  (match t.findKey k with
                   | none => do
                      let sub ← insertPath .nil (p1 :: p2) f
                      Except.ok (t.setKey k (.group sub))
                   | some (.group s) => do
                      let s2 ← insertPath s (p1 :: p2) f
                      Except.ok (t.setKey k (.group s2))
                   | some (.leaf _) => Except.error .typeError) from rfl]
            rw [hfk]
            show (do
                let s3 ← insertPath .nil (p1 :: p2) f
                Except.ok (t.setKey k (.group s3))) = _
            rw [hs2]
            rfl
          · intro q
            cases q with
            | nil => simp [Facts.lookPath]
            | cons q0 qt =>
                by_cases hq0 : q0 = k
                · subst hq0
                  cases qt with
                  | nil =>
                      rw [if_neg (by simp), Facts.lookPath_cons_eq,
                        Facts.findKey_setKey_self, Facts.lookPath_cons_eq, hfk]
                  | cons q1 q2 =>
                      rw [Facts.lookPath_cons_eq, Facts.findKey_setKey_self]
                      show s2.lookPath (q1 :: q2) = _
                      rw [hs2look (q1 :: q2)]
                      rw [Facts.lookPath_nil_tree]
                      rw [show t.lookPath (q0 :: q1 :: q2) = none
                          from by rw [Facts.lookPath_cons_eq, hfk]]
                      by_cases hqp : (q1 :: q2 : List String) = p1 :: p2
                      · rw [if_pos hqp, if_pos (by rw [hqp])]
                      · rw [if_neg hqp, if_neg (by simpa using hqp)]
                · rw [if_neg (by simp [hq0])]
                  exact Facts.lookPath_head_congr _ _ _ _
                    (Facts.findKey_setKey_other t k (.group s2) q0 hq0)


theorem Facts.keys_setKey_mem : ∀ (t : Facts) (k : String) (v : FactsValue)
    (k2 : String), k2 ∈ (t.setKey k v).keys → k2 ∈ t.keys ∨ k2 = k
  | .nil, k, v, k2, hmem => by
      simp only [Facts.setKey, Facts.keys, List.mem_singleton] at hmem
      exact Or.inr hmem
  | .consE k0 v0 rest, k, v, k2, hmem => by
      by_cases hk0 : k0 = k
      · simp only [Facts.setKey, if_pos hk0, Facts.keys] at hmem
        rcases List.mem_cons.mp hmem with rfl | hmem
        · exact Or.inl (by simp [Facts.keys])
        · exact Or.inl (by simp [Facts.keys, hmem])
      · simp only [Facts.setKey, if_neg hk0, Facts.keys] at hmem
        rcases List.mem_cons.mp hmem with rfl | hmem
        · exact Or.inl (by simp [Facts.keys])
        · rcases Facts.keys_setKey_mem rest k v k2 hmem with h | h
          · exact Or.inl (by simp [Facts.keys, h])
          · exact Or.inr h

theorem Facts.setKey_keysOK : ∀ (t : Facts) (k : String) (v : FactsValue),
    t.keysOKB = true → validKey k → FactsValue.keysOKB v = true →
    (t.setKey k v).keysOKB = true
  | .nil, k, v, _, hk, hv => by
      simp [Facts.setKey, Facts.keysOKB, Facts.keys, hk, hv]
  | .consE k0 v0 rest, k, v, hok, hk, hv => by
      have hok2 : validKey k0 ∧ (k0 ∈ rest.keys → False) ∧ FactsValue.keysOKB v0 = true
          ∧ rest.keysOKB = true := by
        simp only [Facts.keysOKB, Bool.and_eq_true, Bool.not_eq_true',
          decide_eq_false_iff_not, decide_eq_true_eq] at hok
        exact ⟨hok.1.1.1, hok.1.1.2, hok.1.2, hok.2⟩
      by_cases hk0 : k0 = k
      · simp only [Facts.setKey, if_pos hk0]
        simp only [Facts.keysOKB, Bool.and_eq_true, Bool.not_eq_true',
          decide_eq_false_iff_not, decide_eq_true_eq]
        exact ⟨⟨⟨hok2.1, hok2.2.1⟩, hv⟩, hok2.2.2.2⟩
      · simp only [Facts.setKey, if_neg hk0]
        simp only [Facts.keysOKB, Bool.and_eq_true, Bool.not_eq_true',
          decide_eq_false_iff_not, decide_eq_true_eq]
        refine ⟨⟨⟨hok2.1, ?_⟩, hok2.2.2.1⟩,
          Facts.setKey_keysOK rest k v hok2.2.2.2 hk hv⟩
        intro hmem
        rcases Facts.keys_setKey_mem rest k v k0 hmem with h | h
        · exact hok2.2.1 h
        · exact hk0 h

theorem Facts.findKey_keysOK : ∀ (t : Facts) (k : String) (v : FactsValue),
    t.findKey k = some v → t.keysOKB = true → FactsValue.keysOKB v = true
  | .nil, _, _, hfk, _ => by simp [Facts.findKey] at hfk
  | .consE k0 v0 rest, k, v, hfk, hok => by
      have hok2 : FactsValue.keysOKB v0 = true ∧ rest.keysOKB = true := by
        simp only [Facts.keysOKB, Bool.and_eq_true] at hok
        exact ⟨hok.1.2, hok.2⟩
      simp only [Facts.findKey] at hfk
      by_cases hk0 : k0 = k
      · rw [if_pos hk0] at hfk
        cases hfk
        exact hok2.1
      · rw [if_neg hk0] at hfk
        exact Facts.findKey_keysOK rest k v hfk hok2.2

theorem insertPath_keysOK : ∀ (p : List String) (t : Facts) (f : Fact) (t2 : Facts),
    insertPath t p f = .ok t2 → t.keysOKB = true →
    (∀ seg ∈ p, validKey seg) → t2.keysOKB = true
  | [], t, f, t2, hins, _, _ => by simp [insertPath] at hins
  | [last], t, f, t2, hins, hok, hsegs => by
      rw [show insertPath t [last] f = .ok (t.setKey last (.leaf f)) from rfl] at hins
      cases hins
      exact Facts.setKey_keysOK t last (.leaf f) hok (hsegs last (by simp)) rfl
  | k :: p1 :: p2, t, f, t2, hins, hok, hsegs => by
      rw [show insertPath t (k :: p1 :: p2) f =
            (match t.findKey k with
             | none => do
                let sub ← insertPath .nil (p1 :: p2) f
                Except.ok (t.setKey k (.group sub))
             | some (.group s) => do
                let s2 ← insertPath s (p1 :: p2) f
                Except.ok (t.setKey k (.group s2))
             | some (.leaf _) => Except.error .typeError) from rfl] at hins
      have hsegs2 : ∀ seg ∈ p1 :: p2, validKey seg := fun seg hseg =>
        hsegs seg (List.mem_cons_of_mem k hseg)
      have hkvalid : validKey k := hsegs k (by simp)
      cases hfk : t.findKey k with
      | none =>
          rw [hfk] at hins
          have hins2 : (do
              let sub ← insertPath .nil (p1 :: p2) f
              Except.ok (t.setKey k (.group sub))) = Except.ok t2 := hins
          cases hsub : insertPath .nil (p1 :: p2) f with
          | error e => rw [hsub] at hins2; cases hins2
          | ok sub =>
              rw [hsub] at hins2
              cases hins2
              exact Facts.setKey_keysOK t k (.group sub) hok hkvalid
                (insertPath_keysOK (p1 :: p2) .nil f sub hsub rfl hsegs2)
      | some v =>
          cases v with
          | leaf g => rw [hfk] at hins; cases hins
          | group s =>
              rw [hfk] at hins
              have hins2 : (do
                  let s2 ← insertPath s (p1 :: p2) f
                  Except.ok (t.setKey k (.group s2))) = Except.ok t2 := hins
              cases hsub : insertPath s (p1 :: p2) f with
              | error e => rw [hsub] at hins2; cases hins2
              | ok s2 =>
                  rw [hsub] at hins2
                  cases hins2
                  have hsok : s.keysOKB = true :=
                    Facts.findKey_keysOK t k (.group s) hfk hok
                  exact Facts.setKey_keysOK t k (.group s2) hok hkvalid
                    (insertPath_keysOK (p1 :: p2) s f s2 hsub hsok hsegs2)

-- ---------------------------------------------------------------------------
-- The unflatten fold and the reverse round trip
-- ---------------------------------------------------------------------------

/-- First entry of a flat list whose key splits to the given path. -/
def lookupSplit : List (String × Fact) → List String → Option Fact
  | [], _ => none
  | (k, f) :: rest, q => if splitDots k = q then some f else lookupSplit rest q

theorem lookupSplit_mem {P : List (String × Fact)} {q : List String} {f : Fact}
    (hf : lookupSplit P q = some f) : ∃ k, (k, f) ∈ P ∧ splitDots k = q := by
  induction P with
  | nil => simp [lookupSplit] at hf
  | cons kf rest ih =>
      cases kf with
      | mk k1 f1 =>
          by_cases hk : splitDots k1 = q
          · simp only [lookupSplit, if_pos hk, Option.some.injEq] at hf
            subst hf
            exact ⟨k1, List.mem_cons_self _ _, hk⟩
          · obtain ⟨k, hmem, hsplit⟩ := ih (by simpa [lookupSplit, hk] using hf)
            exact ⟨k, List.mem_cons_of_mem _ hmem, hsplit⟩

theorem lookupSplit_append_one (P : List (String × Fact)) (k0 : String) (f0 : Fact)
    (q : List String) :
    lookupSplit (P ++ [(k0, f0)]) q =
      match lookupSplit P q with
      | some f => some f
      | none => if splitDots k0 = q then some f0 else none := by
  induction P with
  | nil => simp [lookupSplit]
  | cons kf rest ih =>
      by_cases hk : splitDots kf.1 = q
      · cases kf
        simp_all [lookupSplit]
      · cases kf
        simp_all [lookupSplit]

theorem lookupSplit_eq_lookupFlat (P : List (String × Fact)) (key : String) :
    lookupSplit P (splitDots key) = lookupFlat P key := by
  induction P with
  | nil => rfl
  | cons kf rest ih =>
      cases kf with
      | mk k1 f1 =>
          simp only [lookupSplit, lookupFlat]
          by_cases hk : k1 = key
          · rw [if_pos (by rw [hk]), if_pos hk]
          · rw [if_neg (fun hcontra => hk (splitDots_injective hcontra)), if_neg hk, ih]

/-- The fold inside `Facts.unflatten`, resumed from a partially built
tree. -/
def unflattenFold (t : Facts) (R : List (String × Fact)) : Except PyError Facts :=
  R.foldlM (fun t kf => insertPath t (splitDots kf.1) kf.2) t

theorem unflatten_eq_unflattenFold (flat : List (String × Fact)) :
    Facts.unflatten flat = unflattenFold .nil flat := rfl

theorem unflattenFold_sim : ∀ (R P : List (String × Fact)) (t : Facts),
    (∀ kf ∈ P ++ R, ∀ seg ∈ splitDots kf.1, validKey seg) →
    ((P ++ R).map Prod.fst).Nodup →
    (∀ kf1 ∈ P ++ R, ∀ kf2 ∈ P ++ R, kf1.1 ≠ kf2.1 →
      pathBelow (splitDots kf1.1) (splitDots kf2.1) = false) →
    t.keysOKB = true →
    (∀ q, t.lookPath q = lookupSplit P q) →
    ∃ t2, unflattenFold t R = .ok t2 ∧ t2.keysOKB = true ∧
      ∀ q, t2.lookPath q = lookupSplit (P ++ R) q
  | [], P, t, _, _, _, hok, hlook => ⟨t, rfl, hok, by simpa using hlook⟩
  | (k0, f0) :: R2, P, t, hsegs, hnodup, hpfree, hok, hlook => by
      have hk0mem : (k0, f0) ∈ P ++ (k0, f0) :: R2 := by simp
      have hk0P : k0 ∉ P.map Prod.fst := by
        intro hmem
        have : ¬ (P.map Prod.fst ++ (k0 :: R2.map Prod.fst)).Nodup := by
          intro hcontra
          have hdisj := (List.nodup_append.mp hcontra).2.2
          exact hdisj hmem (by simp)
        exact this (by simpa using hnodup)
      have hyp1 : ∀ q g, pathBelow q (splitDots k0) = true → q ≠ splitDots k0 →
          t.lookPath q ≠ some g := by
        intro q g hb hne hlk
        rw [hlook q] at hlk
        obtain ⟨k, hkmem, hsplit⟩ := lookupSplit_mem hlk
        have hkne : k ≠ k0 := by
          intro hkk
          subst hkk
          exact hne (by rw [← hsplit])
        have := hpfree (k, g) (by simp [List.mem_append.mpr (Or.inl hkmem)])
          (k0, f0) hk0mem hkne
        rw [hsplit] at this
        rw [this] at hb
        cases hb
      have hyp2 : ∀ q g, pathBelow (splitDots k0) q = true → q ≠ splitDots k0 →
          t.lookPath q ≠ some g := by
        intro q g hb hne hlk
        rw [hlook q] at hlk
        obtain ⟨k, hkmem, hsplit⟩ := lookupSplit_mem hlk
        have hkne : k0 ≠ k := by
          intro hkk
          subst hkk
          exact hne (by rw [← hsplit])
        have := hpfree (k0, f0) hk0mem (k, g)
          (by simp [List.mem_append.mpr (Or.inl hkmem)]) hkne
        rw [hsplit] at this
        rw [this] at hb
        cases hb
      obtain ⟨tmid, hins, hmidlook⟩ :=
        insertPath_sim (splitDots k0) t f0 (splitDots_ne_nil k0) hyp1 hyp2
      have hmidok : tmid.keysOKB = true :=
        insertPath_keysOK (splitDots k0) t f0 tmid hins hok
          (hsegs (k0, f0) hk0mem)
      have hmidsplit : ∀ q, tmid.lookPath q = lookupSplit (P ++ [(k0, f0)]) q := by
        intro q
        rw [hmidlook q, lookupSplit_append_one]
        by_cases hq : q = splitDots k0
        · subst hq
          have hnone : lookupSplit P (splitDots k0) = none := by
            cases hl : lookupSplit P (splitDots k0) with
            | none => rfl
            | some g =>
                obtain ⟨k, hkmem, hsplit⟩ := lookupSplit_mem hl
                have hkeq : k = k0 := splitDots_injective hsplit
                subst hkeq
                exact absurd (List.mem_map_of_mem Prod.fst hkmem) hk0P
          rw [if_pos rfl, hnone]
          show (some f0 : Option Fact)
              = if splitDots k0 = splitDots k0 then some f0 else none
          rw [if_pos rfl]
        · rw [if_neg hq, hlook q]
          cases hl : lookupSplit P q with
          | none =>
              show (none : Option Fact) = if splitDots k0 = q then some f0 else none
              rw [if_neg fun hcontra => hq hcontra.symm]
          | some g => rfl
      have hreassoc : P ++ (k0, f0) :: R2 = (P ++ [(k0, f0)]) ++ R2 := by simp
      obtain ⟨t2, hfold, h2ok, h2look⟩ :=
        unflattenFold_sim R2 (P ++ [(k0, f0)]) tmid
          (by rw [← hreassoc]; exact hsegs)
          (by rw [← hreassoc]; exact hnodup)
          (by rw [← hreassoc]; exact hpfree)
          hmidok hmidsplit
      refine ⟨t2, ?_, h2ok, by rw [hreassoc]; exact h2look⟩
      rw [show unflattenFold t ((k0, f0) :: R2)
            = insertPath t (splitDots k0) f0 >>= fun tm => unflattenFold tm R2 from rfl]
      rw [hins]
      exact hfold

/-- `Facts.__init__` (`types.py:90`): checked construction.  Nested
groups are stored as-is; a leaf whose `fact.key` differs from its mapping
key raises `ValueError`.  (The `TypeError` branch for non-`Fact`
non-`Facts` values is unrepresentable in the typed embedding.) -/
def Facts.init : List (String × FactsValue) → Except PyError Facts
  | [] => .ok .nil
  | (k, .group g) :: rest => do
      let r ← Facts.init rest
      .ok (.consE k (.group g) r)
  | (k, .leaf f) :: rest =>
      if f.key = k then do
        let r ← Facts.init rest
        .ok (.consE k (.leaf f) r)
      else .error .valueError

theorem Facts.flatten_unflatten (F : List (String × Fact))
    (hsegs : ∀ kf ∈ F, ∀ seg ∈ splitDots kf.1, validKey seg)
    (hnodup : (F.map Prod.fst).Nodup)
    (hpfree : ∀ kf1 ∈ F, ∀ kf2 ∈ F, kf1.1 ≠ kf2.1 →
        pathBelow (splitDots kf1.1) (splitDots kf2.1) = false) :
    ∃ t, Facts.unflatten F = .ok t ∧
      ∀ key, lookupFlat t.flatten key = lookupFlat F key := by
  obtain ⟨t, hfold, hok, hlook⟩ :=
    unflattenFold_sim F [] .nil (by simpa using hsegs) (by simpa using hnodup)
      (by simpa using hpfree) rfl
      (fun q => by rw [Facts.lookPath_nil_tree]; rfl)
  refine ⟨t, by rw [unflatten_eq_unflattenFold]; exact hfold, ?_⟩
  intro key
  rw [lookupFlat_flatten_eq_lookupPaths t hok key,
    Facts.lookupPaths_eq_lookPath t hok, hlook]
  exact lookupSplit_eq_lookupFlat F key

theorem Facts.init_mismatch : ∀ (entries : List (String × FactsValue))
    (k : String) (f : Fact), (k, .leaf f) ∈ entries → f.key ≠ k →
    Facts.init entries = .error .valueError
  | [], k, f, hmem, _ => by simp at hmem
  | (k0, v0) :: rest, k, f, hmem, hne => by
      rcases List.mem_cons.mp hmem with heq | hmem2
      · have hk0 : k0 = k := (Prod.mk.injEq _ _ _ _).mp heq.symm |>.1
        have hv0 : v0 = .leaf f := (Prod.mk.injEq _ _ _ _).mp heq.symm |>.2
        subst hk0
        subst hv0
        show Facts.init ((k0, .leaf f) :: rest) = .error .valueError
        rw [show Facts.init ((k0, .leaf f) :: rest)
              = (if f.key = k0 then do
                  let r ← Facts.init rest
                  Except.ok (.consE k0 (.leaf f) r)
                 else .error .valueError) from rfl]
        rw [if_neg hne]
      · have hrest : Facts.init rest = .error .valueError :=
          Facts.init_mismatch rest k f hmem2 hne
        cases v0 with
        | group g =>
            show Facts.init ((k0, .group g) :: rest) = .error .valueError
            rw [show Facts.init ((k0, .group g) :: rest)
                  = (do
                      let r ← Facts.init rest
                      Except.ok (.consE k0 (.group g) r)) from rfl]
            rw [hrest]
            rfl
        | leaf g =>
            show Facts.init ((k0, .leaf g) :: rest) = .error .valueError
            rw [show Facts.init ((k0, .leaf g) :: rest)
                  = (if g.key = k0 then do
                      let r ← Facts.init rest
                      Except.ok (.consE k0 (.leaf g) r)
                     else .error .valueError) from rfl]
            by_cases hg : g.key = k0
            · rw [if_pos hg, hrest]
              rfl
            · rw [if_neg hg]

-- ---------------------------------------------------------------------------
-- IterationState (slater/state.py)
-- ---------------------------------------------------------------------------

/-- Python dict assignment on a flat fq-key map (update in place or
append). -/
def setKeyFlat : List (String × Fact) → String → Fact → List (String × Fact)
  | [], k, f => [(k, f)]
  | (k0, f0) :: rest, k, f =>
      if k0 = k then (k0, f) :: rest else (k0, f0) :: setKeyFlat rest k f

theorem lookupFlat_setKeyFlat_self (m : List (String × Fact)) (k : String) (f : Fact) :
    lookupFlat (setKeyFlat m k f) k = some f := by
  induction m with
  | nil => simp [setKeyFlat, lookupFlat]
  | cons kf rest ih =>
      cases kf with
      | mk k0 f0 =>
          by_cases hk : k0 = k
          · simp [setKeyFlat, lookupFlat, hk]
          · simp [setKeyFlat, lookupFlat, hk, ih]

theorem lookupFlat_setKeyFlat_other (m : List (String × Fact)) (k : String) (f : Fact)
    (k2 : String) (hne : k2 ≠ k) :
    lookupFlat (setKeyFlat m k f) k2 = lookupFlat m k2 := by
  induction m with
  | nil =>
      have hk : ¬ k = k2 := fun h => hne h.symm
      simp [setKeyFlat, lookupFlat, hk]
  | cons kf rest ih =>
      cases kf with
      | mk k0 f0 =>
          by_cases hk : k0 = k
          · subst hk
            have h2 : ¬ k0 = k2 := fun h => hne h.symm
            simp [setKeyFlat, lookupFlat, h2]
          · by_cases hk2 : k0 = k2
            · subst hk2
              simp [setKeyFlat, lookupFlat, hk]
            · simp [setKeyFlat, lookupFlat, hk, hk2, ih]

/-- `IterationState` (`state.py:21`): the two disjoint-by-intent flat
maps `_persistent` (durable facts) and `_iteration` (ephemeral facts). -/
structure IterationState where
  persistentM : List (String × Fact)
  iterationM : List (String × Fact)
deriving DecidableEq, Repr

/-- `IterationState.__init__` (`state.py:30`): seed `_persistent` from
the non-iteration leaves of the base Facts (a dict comprehension over
`iter_facts()`); `_iteration` starts empty. -/
def IterationState.init (base : Facts) : IterationState :=
  { persistentM := base.flatten.foldl
      (fun m kf => if kf.2.scope ≠ .iteration then setKeyFlat m kf.1 kf.2 else m) []
  , iterationM := [] }

/-- `IterationState.begin_iteration` (`state.py:41`): evict all
iteration-scoped facts. -/
def IterationState.beginIteration (st : IterationState) : IterationState :=
  { st with iterationM := [] }

/-- One routing step of `apply_facts`: an iteration-scoped fact goes to
`_iteration`, anything else to `_persistent` (`state.py:50`). -/
def IterationState.applyOne (st : IterationState) (kf : String × Fact) :
    IterationState :=
  if kf.2.scope = .iteration then
    { st with iterationM := setKeyFlat st.iterationM kf.1 kf.2 }
  else
    { st with persistentM := setKeyFlat st.persistentM kf.1 kf.2 }

/-- `IterationState.apply_facts` (`state.py:50`): route every leaf of the
tree by scope. -/
def IterationState.applyFacts (st : IterationState) (facts : Facts) :
    IterationState :=
  facts.flatten.foldl IterationState.applyOne st

/-- `IterationState.__contains__` (`state.py:69`). -/
def IterationState.containsKey (st : IterationState) (k : String) : Bool :=
  (lookupFlat st.iterationM k).isSome || (lookupFlat st.persistentM k).isSome

/-- `IterationState.get` (`state.py:64`): ephemeral first, then durable,
then the default. -/
def IterationState.get (st : IterationState) (k : String) (default : PyVal) : PyVal :=
  match lookupFlat st.iterationM k with
  | some f => f.value
  | none =>
      match lookupFlat st.persistentM k with
      | some f => f.value
      | none => default

/-- `IterationState.persistent_facts` (`state.py:84`):
`Facts.unflatten(self._persistent)`. -/
def IterationState.persistentFacts (st : IterationState) : Except PyError Facts :=
  Facts.unflatten st.persistentM

/-- Key-set characterization of the `apply_facts` fold: a key is in the
ephemeral map afterwards iff it was before or some iteration-scoped leaf
of the input carries it. -/
theorem applyFold_iterationM_isSome : ∀ (l : List (String × Fact))
    (st : IterationState) (k : String),
    (lookupFlat (l.foldl IterationState.applyOne st).iterationM k).isSome = true ↔
      ((lookupFlat st.iterationM k).isSome = true
        ∨ ∃ f, (k, f) ∈ l ∧ f.scope = .iteration) := by
  intro l
  induction l with
  | nil => simp
  | cons kf rest ih =>
      intro st k
      rw [List.foldl_cons, ih]
      cases kf with
      | mk k0 f0 =>
          by_cases hscope : f0.scope = .iteration
          · have happ : IterationState.applyOne st (k0, f0)
                = ⟨st.persistentM, setKeyFlat st.iterationM k0 f0⟩ := by
              simp [IterationState.applyOne, hscope]
            simp only [happ]
            by_cases hk : k = k0
            · subst hk
              simp only [lookupFlat_setKeyFlat_self]
              constructor
              · intro _
                exact Or.inr ⟨f0, by simp, hscope⟩
              · intro _
                exact Or.inl rfl
            · rw [show lookupFlat
                    (IterationState.iterationM ⟨st.persistentM,
                      setKeyFlat st.iterationM k0 f0⟩) k
                  = lookupFlat (setKeyFlat st.iterationM k0 f0) k from rfl]
              rw [lookupFlat_setKeyFlat_other _ _ _ _ hk]
              constructor
              · rintro (h | ⟨f, hf, hfs⟩)
                · exact Or.inl h
                · exact Or.inr ⟨f, List.mem_cons_of_mem _ hf, hfs⟩
              · rintro (h | ⟨f, hf, hfs⟩)
                · exact Or.inl h
                · rcases List.mem_cons.mp hf with heq | hf2
                  · exact absurd (congrArg Prod.fst heq) (by simpa using hk)
                  · exact Or.inr ⟨f, hf2, hfs⟩
          · have happ : IterationState.applyOne st (k0, f0)
                = ⟨setKeyFlat st.persistentM k0 f0, st.iterationM⟩ := by
              simp [IterationState.applyOne, hscope]
            simp only [happ]
            constructor
            · rintro (h | ⟨f, hf, hfs⟩)
              · exact Or.inl h
              · exact Or.inr ⟨f, List.mem_cons_of_mem _ hf, hfs⟩
            · rintro (h | ⟨f, hf, hfs⟩)
              · exact Or.inl h
              · rcases List.mem_cons.mp hf with heq | hf2
                · have : f = f0 := congrArg Prod.snd heq
                  subst this
                  exact absurd hfs hscope
                · exact Or.inr ⟨f, hf2, hfs⟩

/-- Key-set characterization for the durable map. -/
theorem applyFold_persistentM_isSome : ∀ (l : List (String × Fact))
    (st : IterationState) (k : String),
    (lookupFlat (l.foldl IterationState.applyOne st).persistentM k).isSome = true ↔
      ((lookupFlat st.persistentM k).isSome = true
        ∨ ∃ f, (k, f) ∈ l ∧ f.scope ≠ .iteration) := by
  intro l
  induction l with
  | nil => simp
  | cons kf rest ih =>
      intro st k
      rw [List.foldl_cons, ih]
      cases kf with
      | mk k0 f0 =>
          by_cases hscope : f0.scope = .iteration
          · have happ : IterationState.applyOne st (k0, f0)
                = ⟨st.persistentM, setKeyFlat st.iterationM k0 f0⟩ := by
              simp [IterationState.applyOne, hscope]
            simp only [happ]
            constructor
            · rintro (h | ⟨f, hf, hfs⟩)
              · exact Or.inl h
              · exact Or.inr ⟨f, List.mem_cons_of_mem _ hf, hfs⟩
            · rintro (h | ⟨f, hf, hfs⟩)
              · exact Or.inl h
              · rcases List.mem_cons.mp hf with heq | hf2
                · have : f = f0 := congrArg Prod.snd heq
                  subst this
                  exact absurd hscope hfs
                · exact Or.inr ⟨f, hf2, hfs⟩
          · have happ : IterationState.applyOne st (k0, f0)
                = ⟨setKeyFlat st.persistentM k0 f0, st.iterationM⟩ := by
              simp [IterationState.applyOne, hscope]
            simp only [happ]
            by_cases hk : k = k0
            · subst hk
              simp only [lookupFlat_setKeyFlat_self]
              constructor
              · intro _
                exact Or.inr ⟨f0, by simp, hscope⟩
              · intro _
                exact Or.inl rfl
            · rw [show lookupFlat
                    (IterationState.persistentM ⟨setKeyFlat st.persistentM k0 f0,
                      st.iterationM⟩) k
                  = lookupFlat (setKeyFlat st.persistentM k0 f0) k from rfl]
              rw [lookupFlat_setKeyFlat_other _ _ _ _ hk]
              constructor
              · rintro (h | ⟨f, hf, hfs⟩)
                · exact Or.inl h
                · exact Or.inr ⟨f, List.mem_cons_of_mem _ hf, hfs⟩
              · rintro (h | ⟨f, hf, hfs⟩)
                · exact Or.inl h
                · rcases List.mem_cons.mp hf with heq | hf2
                  · exact absurd (congrArg Prod.fst heq) (by simpa using hk)
                  · exact Or.inr ⟨f, hf2, hfs⟩

-- ---------------------------------------------------------------------------
-- PhaseRule, TransitionPolicy, ControlPolicy (slater/phases.py, policies.py)
-- ---------------------------------------------------------------------------

/-- `PhaseRule` (`phases.py:158`): a declarative rule for entering a
phase.  Phases are identified by their enum member name. -/
structure PhaseRule where
  enter : String
  when_all : List String := []
  when_any : List String := []
  when_none : List String := []
deriving DecidableEq, Repr

/-- `PhaseRule.matches` (`phases.py:170`): all of `when_all` present, at
least one of `when_any` present (if `when_any` is non-empty), none of
`when_none` present. -/
def PhaseRule.matches (r : PhaseRule) (factKeys : List String) : Bool :=
  (r.when_all.all fun k => decide (k ∈ factKeys))
    && (r.when_any.isEmpty || r.when_any.any fun k => decide (k ∈ factKeys))
    && !(r.when_none.any fun k => decide (k ∈ factKeys))

/-- `TransitionPolicy` (`policies.py:32`). -/
structure TransitionPolicy where
  rules : List PhaseRule
  default : String
deriving DecidableEq, Repr

/-- `TransitionPolicy.derive_phase` (`policies.py:37`): `None` when no
rule matches; the unique match's `enter` otherwise; a `ValueError`
listing `[r.enter for r in matches]` when more than one rule matches. -/
def TransitionPolicy.derive_phase (tp : TransitionPolicy) (factKeys : List String) :
    Except (List String) (Option String) :=
  match tp.rules.filter fun r => r.matches factKeys with
  | [] => .ok none
  | [r] => .ok (some r.enter)
  | r1 :: r2 :: rest => .error (((r1 :: r2 :: rest).map PhaseRule.enter))

/-- `ControlPolicy` (`policies.py:17`). -/
structure ControlPolicy where
  required_state_keys : List String
  user_required_keys : List String
  completion_keys : List String
  failure_keys : List String
deriving DecidableEq, Repr

/-- What the controller does at an iteration boundary
(`controller.py:161`–`186`): both the completion branch and the failure
branch `break` out of the loop (terminating the run; success or failure
per the docstring), the two pause branches `return`, a `None` transition
returns, and a derived phase continues the loop. -/
inductive StepDecision where
  | complete
  | failure
  | pauseUser
  | pauseState
  | noTransition
  | advance (phase : String)
deriving DecidableEq, Repr

/-- The iteration-boundary evaluation of `AgentController.run`
(`controller.py:161`–`186`), over the set of durable fact keys:
completion, then failure, then user pause (missing user-required keys),
then state pause (missing required-state keys), then
`derive_phase`. -/
def controlStep (cp : ControlPolicy) (tp : TransitionPolicy)
    (durableKeys : List String) : Except (List String) StepDecision :=
  if cp.completion_keys.any (fun k => decide (k ∈ durableKeys)) then .ok .complete
  else if cp.failure_keys.any (fun k => decide (k ∈ durableKeys)) then .ok .failure
  else if cp.user_required_keys.any (fun k => decide (k ∉ durableKeys)) then
    .ok .pauseUser
  else if cp.required_state_keys.any (fun k => decide (k ∉ durableKeys)) then
    .ok .pauseState
  else
    match tp.derive_phase durableKeys with
    | .error e => .error e
    | .ok none => .ok .noTransition
    | .ok (some p) => .ok (.advance p)

-- ---------------------------------------------------------------------------
-- EmissionSpec (slater/types.py 196-378)
-- ---------------------------------------------------------------------------

/-- `Emission` (`types.py:196`): declaration of a single fact emission. -/
structure Emission where
  scope : Scope := .session
  fact_type : FactType := .base
  required : Bool := true
deriving DecidableEq, Repr

mutual
/-- An entry of an `EmissionSpec`: a leaf `Emission` or a nested
`EmissionSpec` (`EmissionEntry = Union[Emission, EmissionSpec]`). -/
inductive EmissionEntry where
  | leafE (e : Emission)
  | nested (s : EmissionSpec)

/-- `EmissionSpec` (`types.py:220`): `required` flag plus the ordered
`_emissions` mapping. -/
inductive EmissionSpec where
  | mk (required : Bool) (emissions : EmissionEntries)

/-- The entry spine of `_emissions` (a kwargs dict: ordered, unique
keys). -/
inductive EmissionEntries where
  | nil
  | cons (k : String) (e : EmissionEntry) (rest : EmissionEntries)
end

def EmissionSpec.required : EmissionSpec → Bool
  | ⟨r, _⟩ => r

def EmissionSpec.emissions : EmissionSpec → EmissionEntries
  | ⟨_, es⟩ => es

/-- `EmissionSpec.keys()` (`types.py:279`): top-level declared keys. -/
def EmissionEntries.keysE : EmissionEntries → List String
  | .nil => []
  | .cons k _ rest => k :: rest.keysE

/-- `self._emissions[key]` / `key in self._emissions`. -/
def EmissionEntries.lookupE : EmissionEntries → String → Option EmissionEntry
  | .nil, _ => none
  | .cons k0 e rest, k => if k0 = k then some e else rest.lookupE k

/-- `entry.required` for either kind of entry (`types.py:330`). -/
def EmissionEntry.requiredE : EmissionEntry → Bool
  | .leafE e => e.required
  | .nested s => s.required

/-- Keys of the kwargs dict passed to `build`. -/
def PyFields.keys : PyFields → List String
  | .nil => []
  | .cons k _ rest => k :: rest.keys

def PyFields.lookup : PyFields → String → Option PyVal
  | .nil, _ => none
  | .cons k0 v rest, k => if k0 = k then some v else rest.lookup k

/-- The `missing` set of `build` step 2 (`types.py:328`): declared keys
whose entry is required and which are absent from the supplied values. -/
def EmissionEntries.missingKeys : EmissionEntries → List String → List String
  | .nil, _ => []
  | .cons k e rest, vkeys =>
      if e.requiredE && decide (k ∉ vkeys) then k :: rest.missingKeys vkeys
      else rest.missingKeys vkeys

/-- The errors `EmissionSpec.build` raises (`types.py:322`, `335`,
`347`) plus the ValueError of the final `Facts(**facts_kwargs)` call. -/
inductive BuildError where
  | undeclared (ks : List String)
  | missingRequired (ks : List String)
  | expectedDict (k : String)
  | valueError
deriving DecidableEq, Repr

mutual
/-- `EmissionSpec.build(**values)` (`types.py:305`): reject undeclared
keys, reject missing required keys, then construct facts in the order of
the supplied values — a leaf `Emission` yields
`fact_type(key=key, value=value, scope=scope)`, a nested spec requires a
dict value and recurses — and finally `Facts(**facts_kwargs)`. -/
def EmissionSpec.build : EmissionSpec → PyFields → Except BuildError Facts
  | ⟨_, es⟩, values =>
      match values.keys.filter fun k => (es.lookupE k).isNone with
      | u1 :: urest => .error (.undeclared (u1 :: urest))
      | [] =>
          match es.missingKeys values.keys with
          | m1 :: mrest => .error (.missingRequired (m1 :: mrest))
          | [] => do
              let kwargs ← buildValues es values
              match Facts.init kwargs with
              | .ok t => .ok t
              | .error _ => .error .valueError
  termination_by s values => sizeOf s + sizeOf values

/-- The `for key, value in values.items()` loop of `build`
(`types.py:341`). -/
def buildValues : EmissionEntries → PyFields →
    Except BuildError (List (String × FactsValue))
  | _, .nil => .ok []
  | es, .cons k v rest => do
      let fv ← buildOne es k v
      let r ← buildValues es rest
      .ok ((k, fv) :: r)
  termination_by es values => sizeOf es + sizeOf values

/-- Handling of a single supplied value: look up its declaration and
build a `Fact` or recurse into the nested spec (`types.py:342`–`360`).
The `none` case is unreachable after the undeclared check (modelled as
the generic `ValueError`). -/
def buildOne : EmissionEntries → String → PyVal → Except BuildError FactsValue
  | .nil, _, _ => .error .valueError
  | .cons k0 e rest, k, v =>
      if k0 = k then
        match e with
        | .leafE em => .ok (.leaf ⟨k, v, em.scope, em.fact_type⟩)
        | .nested s2 =>
            match v with
            | .pdict fields => (EmissionSpec.build s2 fields).map .group
            | .atom _ => .error (.expectedDict k)
      else buildOne rest k v
  termination_by es k v => sizeOf es + sizeOf v
end

mutual
/-- `EmissionSpec.to_dict(prefix)` (`types.py:364`): flattened mapping
from fully qualified key to declared scope. -/
def EmissionSpec.toDict : EmissionSpec → String → List (String × Scope)
  | ⟨_, es⟩, pre => es.toDictE pre
def EmissionEntries.toDictE : EmissionEntries → String → List (String × Scope)
  | .nil, _ => []
  | .cons k (.leafE em) rest, pre => (joinKey pre k, em.scope) :: rest.toDictE pre
  | .cons k (.nested s2) rest, pre => s2.toDict (joinKey pre k) ++ rest.toDictE pre
end

/-- A built Facts tree follows the declarations of an entries spine:
each top-level binding is declared at its own key, leaves carry the
mapping key and the declared scope and fact class, groups recursively
follow their nested spec. -/
def followsSpecB : Facts → EmissionEntries → Bool
  | .nil, _ => true
  | .consE k (.leaf f) rest, es =>
      (match es.lookupE k with
       | some (.leafE em) =>
          f.key = k && f.scope = em.scope && f.factType = em.fact_type
       | _ => false) && followsSpecB rest es
  | .consE k (.group sub) rest, es =>
      (match es.lookupE k with
       | some (.nested s2) => followsSpecB sub s2.emissions
       | _ => false) && followsSpecB rest es

mutual
/-- Conditions under which `build` succeeds: every supplied key is
declared, every required declared key is supplied, and each supplied
value for a nested spec is a dict that recursively satisfies the same
conditions. -/
def buildOkB : EmissionSpec → PyFields → Bool
  | ⟨_, es⟩, values =>
      (values.keys.all fun k => (es.lookupE k).isSome)
        && (es.missingKeys values.keys).isEmpty
        && valuesOkB es values
  termination_by s values => sizeOf s + sizeOf values
def valuesOkB : EmissionEntries → PyFields → Bool
  | _, .nil => true
  | es, .cons k v rest => oneOkB es k v && valuesOkB es rest
  termination_by es values => sizeOf es + sizeOf values
def oneOkB : EmissionEntries → String → PyVal → Bool
  | .nil, _, _ => false
  | .cons k0 e rest, k, v =>
      if k0 = k then
        match e with
        | .leafE _ => true
        | .nested s2 =>
            match v with
            | .pdict fields => buildOkB s2 fields
            | .atom _ => false
      else oneOkB rest k v
  termination_by es k v => sizeOf es + sizeOf v
end

/-- The Facts spine assembled from a kwargs list (what
`Facts(**facts_kwargs)` produces when construction succeeds). -/
def Facts.ofList : List (String × FactsValue) → Facts
  | [] => .nil
  | (k, fv) :: rest => .consE k fv (Facts.ofList rest)

/-- The `(key, entry)` pairs of an entries spine, in declaration order. -/
def EmissionEntries.toListE : EmissionEntries → List (String × EmissionEntry)
  | .nil => []
  | .cons k e rest => (k, e) :: rest.toListE

theorem EmissionSpec.build_eq (req : Bool) (es : EmissionEntries)
    (values : PyFields) :
    EmissionSpec.build ⟨req, es⟩ values =
      (match values.keys.filter fun k => (es.lookupE k).isNone with
      | u1 :: urest => .error (.undeclared (u1 :: urest))
      | [] =>
          match es.missingKeys values.keys with
          | m1 :: mrest => .error (.missingRequired (m1 :: mrest))
          | [] => do
              let kwargs ← buildValues es values
              match Facts.init kwargs with
              | .ok t => .ok t
              | .error _ => .error .valueError) := by
  rw [EmissionSpec.build.eq_def]

theorem buildValues_nil (es : EmissionEntries) : buildValues es .nil = .ok [] := by
  rw [buildValues.eq_def]

theorem buildValues_cons (es : EmissionEntries) (k : String) (v : PyVal)
    (rest : PyFields) :
    buildValues es (.cons k v rest) = (do
      let fv ← buildOne es k v
      let r ← buildValues es rest
      .ok ((k, fv) :: r)) := by
  rw [buildValues.eq_def]

/-- `buildOne` expressed through `lookupE`: the entry found for `k`
decides how the supplied value is converted. -/
theorem buildOne_eq : ∀ (es : EmissionEntries) (k : String) (v : PyVal),
    buildOne es k v =
      match es.lookupE k with
      | none => .error .valueError
      | some (.leafE em) => .ok (.leaf ⟨k, v, em.scope, em.fact_type⟩)
      | some (.nested s2) =>
          match v with
          | .pdict fields => (EmissionSpec.build s2 fields).map .group
          | .atom _ => .error (.expectedDict k)
  | .nil, k, v => by
      rw [buildOne.eq_def]
      simp [EmissionEntries.lookupE]
  | .cons k0 e rest, k, v => by
      rw [buildOne.eq_def]
      by_cases h : k0 = k
      · subst h
        simp only [EmissionEntries.lookupE, if_pos rfl]
        cases e <;> rfl
      · simp [EmissionEntries.lookupE, h, buildOne_eq rest k v]

theorem buildOkB_eq (req : Bool) (es : EmissionEntries) (values : PyFields) :
    buildOkB ⟨req, es⟩ values =
      ((values.keys.all fun k => (es.lookupE k).isSome)
        && (es.missingKeys values.keys).isEmpty
        && valuesOkB es values) := by
  rw [buildOkB.eq_def]

theorem valuesOkB_nil (es : EmissionEntries) : valuesOkB es .nil = true := by
  rw [valuesOkB.eq_def]

theorem valuesOkB_cons (es : EmissionEntries) (k : String) (v : PyVal)
    (rest : PyFields) :
    valuesOkB es (.cons k v rest) = (oneOkB es k v && valuesOkB es rest) := by
  rw [valuesOkB.eq_def]

/-- `oneOkB` expressed through `lookupE`. -/
theorem oneOkB_eq : ∀ (es : EmissionEntries) (k : String) (v : PyVal),
    oneOkB es k v =
      match es.lookupE k with
      | none => false
      | some (.leafE _) => true
      | some (.nested s2) =>
          match v with
          | .pdict fields => buildOkB s2 fields
          | .atom _ => false
  | .nil, k, v => by
      rw [oneOkB.eq_def]
      simp [EmissionEntries.lookupE]
  | .cons k0 e rest, k, v => by
      rw [oneOkB.eq_def]
      by_cases h : k0 = k
      · subst h
        simp only [EmissionEntries.lookupE, if_pos rfl]
        cases e <;> rfl
      · simp [EmissionEntries.lookupE, h, oneOkB_eq rest k v]

/-- A nested spec reachable by lookup is smaller than its spine. -/
theorem lookupE_size : ∀ (es : EmissionEntries) (k : String) (s2 : EmissionSpec),
    es.lookupE k = some (.nested s2) → sizeOf s2 < sizeOf es
  | .nil, _, _, h => by simp [EmissionEntries.lookupE] at h
  | .cons k0 e rest, k, s2, h => by
      rw [show (EmissionEntries.cons k0 e rest).lookupE k
            = (if k0 = k then some e else rest.lookupE k) from rfl] at h
      by_cases hk : k0 = k
      · rw [if_pos hk] at h
        have he : e = .nested s2 := Option.some.inj h
        subst he
        simp_arith
      · rw [if_neg hk] at h
        have := lookupE_size rest k s2 h
        simp_arith
        omega

/-- Membership in the `missing` set of `build`. -/
theorem mem_missingKeys : ∀ (es : EmissionEntries) (vkeys : List String)
    (k : String), k ∈ es.missingKeys vkeys ↔
      ∃ e, (k, e) ∈ es.toListE ∧ e.requiredE = true ∧ k ∉ vkeys
  | .nil, vkeys, k => by
      simp [EmissionEntries.missingKeys, EmissionEntries.toListE]
  | .cons k0 e0 rest, vkeys, k => by
      have ih := mem_missingKeys rest vkeys k
      rw [show (EmissionEntries.cons k0 e0 rest).missingKeys vkeys
            = (if e0.requiredE && decide (k0 ∉ vkeys)
               then k0 :: rest.missingKeys vkeys
               else rest.missingKeys vkeys) from rfl]
      rw [show (EmissionEntries.cons k0 e0 rest).toListE
            = (k0, e0) :: rest.toListE from rfl]
      by_cases hcond : (e0.requiredE && decide (k0 ∉ vkeys)) = true
      · rw [if_pos hcond]
        have hcond2 : e0.requiredE = true ∧ k0 ∉ vkeys := by simpa using hcond
        obtain ⟨hreq, hnv⟩ := hcond2
        constructor
        · intro hmem
          rcases List.mem_cons.mp hmem with heq | hmem2
          · exact ⟨e0, List.mem_cons.mpr (Or.inl (by rw [heq])), hreq,
              by rw [heq]; exact hnv⟩
          · obtain ⟨e, hmem3, hr, hnv2⟩ := ih.mp hmem2
            exact ⟨e, List.mem_cons.mpr (Or.inr hmem3), hr, hnv2⟩
        · intro hex
          obtain ⟨e, hmem3, hr, hnv2⟩ := hex
          rcases List.mem_cons.mp hmem3 with heq | hmem4
          · have hk : k = k0 := congrArg Prod.fst heq
            exact List.mem_cons.mpr (Or.inl hk)
          · exact List.mem_cons.mpr (Or.inr (ih.mpr ⟨e, hmem4, hr, hnv2⟩))
      · rw [if_neg hcond]
        rw [ih]
        constructor
        · intro hex
          obtain ⟨e, hmem3, hr, hnv2⟩ := hex
          exact ⟨e, List.mem_cons.mpr (Or.inr hmem3), hr, hnv2⟩
        · intro hex
          obtain ⟨e, hmem3, hr, hnv2⟩ := hex
          rcases List.mem_cons.mp hmem3 with heq | hmem4
          · exfalso
            have hk : k = k0 := congrArg Prod.fst heq
            have he : e = e0 := congrArg Prod.snd heq
            subst hk
            subst he
            exact hcond (by simp [hr, hnv2])
          · exact ⟨e, hmem4, hr, hnv2⟩

/-- `Facts(**kwargs)` succeeds on key-aligned entry lists and returns
exactly the given spine. -/
theorem Facts.init_aligned : ∀ (entries : List (String × FactsValue)),
    (∀ k f, (k, FactsValue.leaf f) ∈ entries → f.key = k) →
    Facts.init entries = .ok (Facts.ofList entries)
  | [], _ => rfl
  | (k0, .group g) :: rest, h => by
      rw [show Facts.init ((k0, .group g) :: rest) = (do
            let r ← Facts.init rest
            Except.ok (.consE k0 (.group g) r)) from rfl]
      rw [Facts.init_aligned rest fun k f hm => h k f (List.mem_cons_of_mem _ hm)]
      rfl
  | (k0, .leaf f0) :: rest, h => by
      have hkey : f0.key = k0 := h k0 f0 (List.mem_cons_self _ _)
      rw [show Facts.init ((k0, .leaf f0) :: rest)
            = (if f0.key = k0 then do
                let r ← Facts.init rest
                Except.ok (.consE k0 (.leaf f0) r)
              else .error .valueError) from rfl]
      rw [if_pos hkey,
        Facts.init_aligned rest fun k f hm => h k f (List.mem_cons_of_mem _ hm)]
      rfl

theorem Facts.ofList_keys : ∀ (l : List (String × FactsValue)),
    (Facts.ofList l).keys = l.map Prod.fst
  | [] => rfl
  | (_, _) :: rest => by
      simp [Facts.ofList, Facts.keys, Facts.ofList_keys rest]

/-- Fueled success characterization of `build` and of its inner values
loop: under `buildOkB` the build succeeds and the result's top-level
keys are the supplied keys while every binding follows its
declaration. -/
theorem build_ok_fuel : ∀ (n : Nat),
    (∀ (s : EmissionSpec) (values : PyFields),
      sizeOf s + sizeOf values ≤ n → buildOkB s values = true →
      ∃ t, EmissionSpec.build s values = .ok t ∧ t.keys = values.keys ∧
        followsSpecB t s.emissions = true)
    ∧ (∀ (es : EmissionEntries) (vs : PyFields),
      sizeOf es + sizeOf vs ≤ n → valuesOkB es vs = true →
      ∃ kwargs, buildValues es vs = .ok kwargs ∧
        kwargs.map Prod.fst = vs.keys ∧
        followsSpecB (Facts.ofList kwargs) es = true ∧
        (∀ k f, (k, FactsValue.leaf f) ∈ kwargs → f.key = k)) := by
  intro n
  induction n with
  | zero =>
      constructor
      · intro s values hsz _
        exfalso
        obtain ⟨req, es⟩ := s
        simp_arith at hsz
      · intro es vs hsz _
        exfalso
        cases es <;> simp_arith at hsz
  | succ n ih =>
      constructor
      · intro s values hsz hok
        obtain ⟨req, es⟩ := s
        rw [buildOkB_eq] at hok
        have hok2 : ((∀ k ∈ values.keys, (es.lookupE k).isSome = true)
              ∧ es.missingKeys values.keys = [])
            ∧ valuesOkB es values = true := by simpa using hok
        obtain ⟨⟨hall, hmks⟩, hvals⟩ := hok2
        have hfilter : values.keys.filter (fun k => (es.lookupE k).isNone) = [] := by
          rw [List.filter_eq_nil_iff]
          intro k hk
          have hs := hall k hk
          cases hlk : es.lookupE k with
          | none => rw [hlk] at hs; cases hs
          | some e => simp [hlk]
        have hszv : sizeOf es + sizeOf values ≤ n := by
          simp_arith at hsz
          omega
        obtain ⟨kwargs, hbv, hmap, hfollow, halign⟩ := ih.2 es values hszv hvals
        refine ⟨Facts.ofList kwargs, ?_, ?_, ?_⟩
        · rw [EmissionSpec.build_eq, hfilter, hmks]
          show (do
              let kwargs ← buildValues es values
              match Facts.init kwargs with
              | .ok t => .ok t
              | .error _ => .error .valueError) = _
          rw [hbv]
          show (match Facts.init kwargs with
              | .ok t => Except.ok t
              | .error _ => Except.error BuildError.valueError) = _
          rw [Facts.init_aligned kwargs halign]
        · rw [Facts.ofList_keys, hmap]
        · exact hfollow
      · intro es vs hsz hvals
        cases vs with
        | nil =>
            exact ⟨[], buildValues_nil es, rfl, rfl, by simp⟩
        | cons k v rest =>
            rw [valuesOkB_cons] at hvals
            have hvals2 : oneOkB es k v = true ∧ valuesOkB es rest = true := by
              simpa using hvals
            obtain ⟨h1, h2⟩ := hvals2
            rw [oneOkB_eq] at h1
            have hvpos : 1 ≤ sizeOf v := by cases v <;> simp_arith
            have hszr : sizeOf es + sizeOf rest ≤ n := by
              simp_arith at hsz
              omega
            obtain ⟨kwargs2, hbv2, hmap2, hfollow2, halign2⟩ := ih.2 es rest hszr h2
            cases hlk : es.lookupE k with
            | none => rw [hlk] at h1; cases h1
            | some e =>
              cases e with
              | leafE em =>
                  have hone : buildOne es k v
                      = .ok (.leaf ⟨k, v, em.scope, em.fact_type⟩) := by
                    rw [buildOne_eq, hlk]
                  refine ⟨(k, .leaf ⟨k, v, em.scope, em.fact_type⟩) :: kwargs2,
                    ?_, ?_, ?_, ?_⟩
                  · rw [buildValues_cons, hone]
                    show (do
                        let r ← buildValues es rest
                        Except.ok ((k, FactsValue.leaf
                          ⟨k, v, em.scope, em.fact_type⟩) :: r)) = _
                    rw [hbv2]
                    rfl
                  · simp [hmap2, PyFields.keys]
                  · show ((match es.lookupE k with
                        | some (.leafE em2) =>
                            decide ((Fact.mk k v em.scope em.fact_type).key = k)
                              && decide ((Fact.mk k v em.scope em.fact_type).scope
                                  = em2.scope)
                              && decide ((Fact.mk k v em.scope em.fact_type).factType
                                  = em2.fact_type)
                        | _ => false)
                      && followsSpecB (Facts.ofList kwargs2) es) = true
                    rw [hlk]
                    simp [hfollow2]
                  · intro k2 f2 hm
                    rcases List.mem_cons.mp hm with heq | hm2
                    · have hk2 : k2 = k := congrArg Prod.fst heq
                      have hf2 : FactsValue.leaf f2
                          = FactsValue.leaf ⟨k, v, em.scope, em.fact_type⟩ :=
                        congrArg Prod.snd heq
                      have hf3 : f2 = ⟨k, v, em.scope, em.fact_type⟩ := by
                        cases hf2
                        rfl
                      rw [hf3, hk2]
                    · exact halign2 k2 f2 hm2
              | nested s2 =>
                  cases v with
                  | atom a =>
                      rw [hlk] at h1
                      simp at h1
                  | pdict fields =>
                      rw [hlk] at h1
                      have h1b : buildOkB s2 fields = true := by simpa using h1
                      have hs2 : sizeOf s2 < sizeOf es := lookupE_size es k s2 hlk
                      have hszf : sizeOf s2 + sizeOf fields ≤ n := by
                        simp_arith at hsz
                        omega
                      obtain ⟨t2, hb2, hk2, hf2⟩ := ih.1 s2 fields hszf h1b
                      have hone : buildOne es k (.pdict fields)
                          = .ok (.group t2) := by
                        rw [buildOne_eq, hlk]
                        show Except.map FactsValue.group
                            (EmissionSpec.build s2 fields) = _
                        rw [hb2]
                        rfl
                      refine ⟨(k, .group t2) :: kwargs2, ?_, ?_, ?_, ?_⟩
                      · rw [buildValues_cons, hone]
                        show (do
                            let r ← buildValues es rest
                            Except.ok ((k, FactsValue.group t2) :: r)) = _
                        rw [hbv2]
                        rfl
                      · simp [hmap2, PyFields.keys]
                      · show ((match es.lookupE k with
                            | some (.nested s3) => followsSpecB t2 s3.emissions
                            | _ => false)
                          && followsSpecB (Facts.ofList kwargs2) es) = true
                        rw [hlk]
                        simp [hf2, hfollow2]
                      · intro k2 f3 hm
                        rcases List.mem_cons.mp hm with heq | hm2
                        · exact absurd (congrArg Prod.snd heq) (by simp)
                        · exact halign2 k2 f3 hm2

-- ---------------------------------------------------------------------------
-- Fact scope validation (slater/validation.py, slater/spec.py)
-- ---------------------------------------------------------------------------

inductive Severity where
  | error
  | warning
deriving DecidableEq, Repr

/-- `FactScopeIssue` (`validation.py:25`). `expected_scope` is always
the literal `"session"` and `message` is a presentation-only formatted
string; both are omitted from the embedding. -/
structure FactScopeIssue where
  fact_key : String
  actual_scope : Option Scope
  emitting_action : Option String
  referenced_by : String
  severity : Severity
deriving DecidableEq, Repr

/-- The exceptions the `AgentSpec` construction-time validation chain
can raise: `ValueError`/`TypeError` from the early checks, Python's
`AttributeError` from a failed attribute lookup, and `FactScopeError`
(`validation.py:41`) carrying its issues. -/
inductive SpecError where
  | valueError (msg : String)
  | typeError (msg : String)
  | attributeError (obj attr : String)
  | factScopeError (issues : List FactScopeIssue)
deriving DecidableEq, Repr

/-- An action class as the validator sees it: `__name__`, whether
`hasattr(action_cls, 'emits')`, and the dict-style `emits` mapping from
fact key to declared scope (`validation.py:85`–`88`). -/
structure ActionDecl where
  name : String
  hasEmits : Bool := true
  emits : List (String × Scope) := []
deriving DecidableEq, Repr

/-- `ProcedureTemplate` (`procedures.py:9`): `__init__` stores `name`
and the private `_actions` list; the class defines no `actions`
attribute or property. -/
structure ProcedureTemplate where
  name : String
  _actions : List ActionDecl
deriving DecidableEq, Repr

/-- The attribute lookup `template.actions` performed by
`validate_fact_scopes` (`validation.py:81`). Because
`ProcedureTemplate.__init__` (`procedures.py:19`–`21`) sets only `name`
and `_actions` and the class body declares nothing else, Python raises
`AttributeError` on this lookup for every template. -/
def ProcedureTemplate.attrActions (_t : ProcedureTemplate) :
    Except SpecError (List ActionDecl) :=
  .error (.attributeError "ProcedureTemplate" "actions")

/-- `emissions[key] = (action_name, scope)`: dict assignment
(overwrite in place or append). -/
def setEmission : List (String × String × Scope) → String → String × Scope →
    List (String × String × Scope)
  | [], k, v => [(k, v)]
  | (k0, v0) :: rest, k, v =>
      if k0 = k then (k0, v) :: rest else (k0, v0) :: setEmission rest k v

def lookupEmission : List (String × String × Scope) → String →
    Option (String × Scope)
  | [], _ => none
  | (k0, v0) :: rest, k => if k0 = k then some v0 else lookupEmission rest k

/-- The inner loops of phase 1 of `validate_fact_scopes`
(`validation.py:81`–`88`): record `(action_name, scope)` for each
declared emission of each action. -/
def addEmits (em : List (String × String × Scope)) (a : ActionDecl) :
    List (String × String × Scope) :=
  if a.hasEmits then a.emits.foldl (fun m kv => setEmission m kv.1 (a.name, kv.2)) em
  else em

/-- Phase 1 of `validate_fact_scopes` (`validation.py:80`–`88`): walk
`procedures.items()` and each `template.actions` — a lookup that raises
`AttributeError` (see `ProcedureTemplate.attrActions`). -/
def collectEmissions (em : List (String × String × Scope)) :
    List (String × ProcedureTemplate) →
    Except SpecError (List (String × String × Scope))
  | [] => .ok em
  | (_, t) :: rest => do
      let acts ← t.attrActions
      collectEmissions (acts.foldl addEmits em) rest

/-- `_check_fact_scope` (`validation.py:120`): a warning when the key is
undeclared, an error when its declared scope is `iteration`, nothing
otherwise. -/
def check_fact_scope (key : String) (em : List (String × String × Scope))
    (referenced_by : String) : List FactScopeIssue :=
  match lookupEmission em key with
  | none => [⟨key, none, none, referenced_by, .warning⟩]
  | some (an, sc) =>
      if sc = .iteration then [⟨key, some sc, some an, referenced_by, .error⟩]
      else []

/-- `validate_fact_scopes` (`validation.py:57`): collect emissions from
all actions, then check `when_all`/`when_none` of every rule and the
four control-policy key sets, in source order. -/
def validate_fact_scopes (procedures : List (String × ProcedureTemplate))
    (tp : TransitionPolicy) (cp : ControlPolicy) :
    Except SpecError (List FactScopeIssue) := do
  let emissions ← collectEmissions [] procedures
  let ruleIssues := tp.rules.foldl (fun acc r =>
    let acc2 := r.when_all.foldl (fun a k =>
      a ++ check_fact_scope k emissions
        ("PhaseRule(enter=" ++ r.enter ++ ").when_all")) acc
    if r.when_none.isEmpty then acc2
    else r.when_none.foldl (fun a k =>
      a ++ check_fact_scope k emissions
        ("PhaseRule(enter=" ++ r.enter ++ ").when_none")) acc2) []
  let cpIssues1 := cp.completion_keys.foldl (fun a k =>
    a ++ check_fact_scope k emissions "ControlPolicy.completion_keys") ruleIssues
  let cpIssues2 := cp.failure_keys.foldl (fun a k =>
    a ++ check_fact_scope k emissions "ControlPolicy.failure_keys") cpIssues1
  let cpIssues3 := cp.required_state_keys.foldl (fun a k =>
    a ++ check_fact_scope k emissions "ControlPolicy.required_state_keys") cpIssues2
  let cpIssues4 := cp.user_required_keys.foldl (fun a k =>
    a ++ check_fact_scope k emissions "ControlPolicy.user_required_keys") cpIssues3
  .ok cpIssues4

/-- `AgentSpec` (`spec.py:19`): phases and procedure keys are modelled
as strings (the Enum-membership `isinstance` checks of
`_validate_phases` are Python type checks with no counterpart here). -/
structure AgentSpec where
  name : String
  version : String
  phases : List String
  control_policy : ControlPolicy
  transition_policy : TransitionPolicy
  procedures : List (String × ProcedureTemplate)
  validate_emissions : Bool := true
deriving DecidableEq, Repr

/-- The overlap test of `_check_rule_determinism` (`spec.py:132`–`147`):
identical `when_all` sets and all four `when_any`/`when_none` empty. -/
def rulesOverlap (a b : PhaseRule) : Bool :=
  (a.when_all.all fun k => decide (k ∈ b.when_all))
    && (b.when_all.all fun k => decide (k ∈ a.when_all))
    && a.when_any.isEmpty && a.when_none.isEmpty
    && b.when_any.isEmpty && b.when_none.isEmpty

/-- `_check_rule_determinism` (`spec.py:123`): raise on the first pair
of overlapping rules. -/
def checkDeterminism : List PhaseRule → Except SpecError Unit
  | [] => .ok ()
  | r :: rest =>
      if rest.any fun r2 => rulesOverlap r r2 then
        .error (.valueError "PhaseRules overlap (non-deterministic)")
      else checkDeterminism rest

/-- `AgentSpec._validate` as run by `__post_init__` (`spec.py:46`–`59`):
name/version, phases, procedures, transition policy (default, rule
targets, determinism), control policy, then — when `validate_emissions`
is set — `_validate_fact_scopes` (`spec.py:166`), which raises
`FactScopeError` only for error-severity issues. A Python string is
falsy-or-blank exactly when every character is whitespace. -/
def AgentSpec.validate (s : AgentSpec) : Except SpecError Unit :=
  if s.name.data.all Char.isWhitespace then
    .error (.valueError "AgentSpec.name cannot be empty")
  else if s.version.data.all Char.isWhitespace then
    .error (.valueError "AgentSpec.version cannot be empty")
  else if s.phases.isEmpty then
    .error (.valueError "AgentSpec must define at least one Phase")
  else if !(s.phases.filter fun p =>
      decide (p ∉ s.procedures.map Prod.fst)).isEmpty then
    .error (.valueError "AgentSpec missing Procedures for Phases")
  else if decide (s.transition_policy.default ∉ s.phases) then
    .error (.valueError "TransitionPolicy.default references unknown Phase")
  else if s.transition_policy.rules.any fun r => decide (r.enter ∉ s.phases) then
    .error (.valueError "PhaseRule references unknown Phase")
  else match checkDeterminism s.transition_policy.rules with
  | .error e => .error e
  | .ok _ =>
      if !(s.control_policy.completion_keys.filter fun k =>
          decide (k ∈ s.control_policy.failure_keys)).isEmpty then
        .error (.valueError "keys in both completion_keys and failure_keys")
      else if s.validate_emissions then
        match validate_fact_scopes s.procedures s.transition_policy
          s.control_policy with
        | .error e => .error e
        | .ok issues =>
            match issues.filter fun i => i.severity == Severity.error with
            | [] => .ok ()
            | e1 :: erest => .error (.factScopeError (e1 :: erest))
      else .ok ()

/-- The spec's scenario 6 as an `AgentSpec`: one phase, an action
declaring `emits = {'ready': 'iteration'}`, and a `PhaseRule`
referencing `ready` in `when_all`. -/
def scenarioSix : AgentSpec :=
  { name := "scope-safety"
  , version := "1"
  , phases := ["WORK"]
  , control_policy := ⟨[], [], ["task.complete"], []⟩
  , transition_policy := ⟨[⟨"WORK", ["ready"], [], []⟩], "WORK"⟩
  , procedures := [("WORK", ⟨"work", [⟨"EmitReady", true,
      [("ready", Scope.iteration)]⟩]⟩)]
  , validate_emissions := true }

-- ---------------------------------------------------------------------------
-- Controller iteration body (slater/controller.py)
-- ---------------------------------------------------------------------------

/-- The value carried by an actionpack `Result`: the controller only
cares whether it `isinstance(value, Facts)`. -/
instance : Repr Facts := ⟨fun _ _ => "Facts .."⟩

inductive RValue where
  | facts (t : Facts)
  | nonFacts
deriving DecidableEq, Repr

/-- Modelled from the spec: an actionpack `Result` as yielded by the
procedure executor (§4.7 of the spec: "Action execution returns a result
whose success variant carries a Facts value; failure is reported
per-action.  The procedure executor yields (action_name, result) pairs
in order").  The actionpack library itself is an external collaborator
and is not in `src/`. -/
structure Result where
  successful : Bool
  value : RValue
deriving DecidableEq, Repr

/-- `IterationFacts` (`types.py:386`), restricted to the fields the
controller constructs in `_finalize_iteration` (the timestamp default is
`None`). -/
structure IterationFacts where
  iteration : Nat
  phase : String
  by_action : List (String × Facts)
deriving DecidableEq, Repr

/-- A call to `store.save(agent_id, iteration_facts, persistent_facts)`
(`controller.py:266`). -/
structure SaveCall where
  agent_id : String
  iteration_facts : IterationFacts
  persistent_facts : Facts
deriving DecidableEq, Repr

/-- The `by_action` map built by `_finalize_iteration`
(`controller.py:247`–`254`): successful results whose value is a
`Facts`, keyed by action name in order. -/
def byActionOf (results : List (String × Result)) : List (String × Facts) :=
  results.filterMap fun nr =>
    if nr.2.successful then
      match nr.2.value with
      | .facts t => some (nr.1, t)
      | .nonFacts => none
    else none

/-- The eager fact-application loop (`controller.py:144`–`148`): each
successful result whose value is a `Facts` is applied to the
`IterationState` immediately. -/
def applyResults (st : IterationState) (results : List (String × Result)) :
    IterationState :=
  results.foldl
    (fun st nr =>
      if nr.2.successful then
        match nr.2.value with
        | .facts t => st.applyFacts t
        | .nonFacts => st
      else st)
    st

/-- `AgentController._finalize_iteration` (`controller.py:240`): builds
`by_action` from the successful emissions; returns without calling
`store.save` when `by_action` is empty, otherwise calls it once with the
`IterationFacts` record and `state.persistent_facts()`. -/
def finalizeIteration (agentId : String) (iterNo : Nat) (phase : String)
    (results : List (String × Result)) (st : IterationState) :
    Except PyError (Option SaveCall) :=
  match byActionOf results with
  | [] => .ok none
  | ba1 :: rest => do
      let snap ← st.persistentFacts
      .ok (some ⟨agentId, ⟨iterNo, phase, ba1 :: rest⟩, snap⟩)

/-- The outcome of one controller iteration given the executor's result
sequence: the final working state, the (at most one) `store.save` call,
and the boundary decision. -/
structure IterationOutcome where
  finalState : IterationState
  saveCall : Option SaveCall
  decision : Except (List String) StepDecision
deriving DecidableEq, Repr

/-- One iteration of `AgentController.run` (`controller.py:127`–`186`)
after the executor has produced its `(action_name, result)` pairs: load
into a fresh `IterationState`, `begin_iteration`, apply successful Facts
eagerly, finalize (persist), then evaluate the control policy and the
transition policy over the durable keys
(`set(durable_facts.serialize().keys())`). -/
def runIterationBody (cp : ControlPolicy) (tp : TransitionPolicy)
    (agentId : String) (iterNo : Nat) (phase : String) (loaded : Facts)
    (results : List (String × Result)) : Except PyError IterationOutcome := do
  let st0 := (IterationState.init loaded).beginIteration
  let st := applyResults st0 results
  let save ← finalizeIteration agentId iterNo phase results st
  let durable ← st.persistentFacts
  let durableKeys := durable.serialize.map Prod.fst
  .ok ⟨st, save, controlStep cp tp durableKeys⟩

theorem byActionOf_append (l1 l2 : List (String × Result)) :
    byActionOf (l1 ++ l2) = byActionOf l1 ++ byActionOf l2 := by
  unfold byActionOf
  rw [List.filterMap_append]

theorem byActionOf_failed (name : String) (v : RValue) :
    byActionOf [(name, ⟨false, v⟩)] = [] := rfl

theorem applyResults_append (st : IterationState) (l1 l2 : List (String × Result)) :
    applyResults st (l1 ++ l2) = applyResults (applyResults st l1) l2 := by
  unfold applyResults
  rw [List.foldl_append]

theorem applyResults_failed (st : IterationState) (name : String) (v : RValue) :
    applyResults st [(name, ⟨false, v⟩)] = st := rfl

-- ---------------------------------------------------------------------------
-- Claim theorems: C1, C2, C3, C10
-- ---------------------------------------------------------------------------

/-- C3, counterexample: seed an `IterationState` with a durable fact at
key `"k"`, then `apply_facts` a Facts carrying an iteration-scoped fact
at the same key.  The new fact lands in the ephemeral map but the stale
durable entry is not removed, so `"k"` is present in both maps —
refuting the claim that no fully-qualified key is ever in both, even
when a held key is re-applied with the other scope. -/
theorem C3_scope_routing_counterexample :
    (lookupFlat ((IterationState.init
        (Facts.consE "k" (.leaf ⟨"k", .atom 1, .session, .base⟩) .nil)).applyFacts
        (Facts.consE "k" (.leaf ⟨"k", .atom 2, .iteration, .base⟩) .nil)).iterationM
      "k").isSome = true
    ∧ (lookupFlat ((IterationState.init
        (Facts.consE "k" (.leaf ⟨"k", .atom 1, .session, .base⟩) .nil)).applyFacts
        (Facts.consE "k" (.leaf ⟨"k", .atom 2, .iteration, .base⟩) .nil)).persistentM
      "k").isSome = true := by
  constructor <;> decide

/-- C3 (amended): after `IterationState.apply_facts(F)` every
iteration-scoped leaf of F is present in the ephemeral map and every
other leaf in the durable map; the two maps are disjoint afterwards
provided they were disjoint before and no key of F is applied with the
opposite scope of an entry it already has (a scope-flipping application
leaves the stale entry in the other map, so such a key ends up in
both). -/
theorem C3_scope_routing (st : IterationState) (F : Facts) :
    (∀ k f, (k, f) ∈ F.flatten → f.scope = .iteration →
      (lookupFlat (st.applyFacts F).iterationM k).isSome = true)
    ∧ (∀ k f, (k, f) ∈ F.flatten → f.scope ≠ .iteration →
      (lookupFlat (st.applyFacts F).persistentM k).isSome = true)
    ∧ ((∀ k, ¬((lookupFlat st.iterationM k).isSome = true
          ∧ (lookupFlat st.persistentM k).isSome = true)) →
       (∀ k f, (k, f) ∈ F.flatten → f.scope = .iteration →
          lookupFlat st.persistentM k = none
            ∧ ∀ f2, (k, f2) ∈ F.flatten → f2.scope = .iteration) →
       (∀ k f, (k, f) ∈ F.flatten → f.scope ≠ .iteration →
          lookupFlat st.iterationM k = none
            ∧ ∀ f2, (k, f2) ∈ F.flatten → f2.scope ≠ .iteration) →
       ∀ k, ¬((lookupFlat (st.applyFacts F).iterationM k).isSome = true
          ∧ (lookupFlat (st.applyFacts F).persistentM k).isSome = true)) := by
  refine ⟨?_, ?_, ?_⟩
  · intro k f hmem hsc
    rw [show st.applyFacts F = F.flatten.foldl IterationState.applyOne st from rfl]
    exact (applyFold_iterationM_isSome F.flatten st k).mpr (Or.inr ⟨f, hmem, hsc⟩)
  · intro k f hmem hsc
    rw [show st.applyFacts F = F.flatten.foldl IterationState.applyOne st from rfl]
    exact (applyFold_persistentM_isSome F.flatten st k).mpr (Or.inr ⟨f, hmem, hsc⟩)
  · intro hdisj hiter hdur k hboth
    rw [show st.applyFacts F = F.flatten.foldl IterationState.applyOne st from rfl]
      at hboth
    have ha := (applyFold_iterationM_isSome F.flatten st k).mp hboth.1
    have hb := (applyFold_persistentM_isSome F.flatten st k).mp hboth.2
    rcases ha with ha | ⟨f, hf, hfs⟩
    · rcases hb with hb | ⟨g, hg, hgs⟩
      · exact hdisj k ⟨ha, hb⟩
      · have := (hdur k g hg hgs).1
        rw [this] at ha
        cases ha
    · rcases hb with hb | ⟨g, hg, hgs⟩
      · have := (hiter k f hf hfs).1
        rw [this] at hb
        cases hb
      · exact hgs ((hiter k f hf hfs).2 g hg)

theorem C3_scope_routing_witness :
    (lookupFlat ((IterationState.mk [] []).applyFacts
        (Facts.consE "a" (.leaf ⟨"a", .atom 1, .iteration, .base⟩)
          (Facts.consE "b" (.leaf ⟨"b", .atom 2, .session, .base⟩) .nil))).iterationM
      "a").isSome = true
    ∧ (lookupFlat ((IterationState.mk [] []).applyFacts
        (Facts.consE "a" (.leaf ⟨"a", .atom 1, .iteration, .base⟩)
          (Facts.consE "b" (.leaf ⟨"b", .atom 2, .session, .base⟩) .nil))).persistentM
      "b").isSome = true
    ∧ ¬((lookupFlat ((IterationState.mk [] []).applyFacts
          (Facts.consE "a" (.leaf ⟨"a", .atom 1, .iteration, .base⟩)
            (Facts.consE "b" (.leaf ⟨"b", .atom 2, .session, .base⟩) .nil))).iterationM
        "b").isSome = true
      ∧ (lookupFlat ((IterationState.mk [] []).applyFacts
          (Facts.consE "a" (.leaf ⟨"a", .atom 1, .iteration, .base⟩)
            (Facts.consE "b" (.leaf ⟨"b", .atom 2, .session, .base⟩) .nil))).persistentM
        "b").isSome = true) := by
  have hc := C3_scope_routing (IterationState.mk [] [])
    (Facts.consE "a" (.leaf ⟨"a", .atom 1, .iteration, .base⟩)
      (Facts.consE "b" (.leaf ⟨"b", .atom 2, .session, .base⟩) .nil))
  have hmema : ("a", (⟨"a", .atom 1, .iteration, .base⟩ : Fact))
      ∈ (Facts.consE "a" (.leaf ⟨"a", .atom 1, .iteration, .base⟩)
        (Facts.consE "b" (.leaf ⟨"b", .atom 2, .session, .base⟩) .nil)).flatten := by
    decide
  have hmemb : ("b", (⟨"b", .atom 2, .session, .base⟩ : Fact))
      ∈ (Facts.consE "a" (.leaf ⟨"a", .atom 1, .iteration, .base⟩)
        (Facts.consE "b" (.leaf ⟨"b", .atom 2, .session, .base⟩) .nil)).flatten := by
    decide
  refine ⟨hc.1 "a" _ hmema (by decide), hc.2.1 "b" _ hmemb (by decide),
    hc.2.2 ?_ ?_ ?_ "b"⟩
  · intro k hk
    have : lookupFlat ([] : List (String × Fact)) k = none := rfl
    rw [show (IterationState.mk [] []).iterationM = [] from rfl, this] at hk
    cases hk.1
  · intro k f hmem hsc
    refine ⟨rfl, ?_⟩
    intro f2 hmem2
    rw [show (Facts.consE "a" (.leaf ⟨"a", .atom 1, .iteration, .base⟩)
          (Facts.consE "b" (.leaf ⟨"b", .atom 2, .session, .base⟩) .nil)).flatten
        = [("a", ⟨"a", .atom 1, .iteration, .base⟩),
           ("b", ⟨"b", .atom 2, .session, .base⟩)] from rfl] at hmem hmem2
    have hk : k = "a" ∧ f = ⟨"a", .atom 1, .iteration, .base⟩
        ∨ k = "b" ∧ f = ⟨"b", .atom 2, .session, .base⟩ := by simpa using hmem
    have hk2 : k = "a" ∧ f2 = ⟨"a", .atom 1, .iteration, .base⟩
        ∨ k = "b" ∧ f2 = ⟨"b", .atom 2, .session, .base⟩ := by simpa using hmem2
    rcases hk with ⟨hka, hfa⟩ | ⟨hkb, hfb⟩
    · rcases hk2 with ⟨_, hf2⟩ | ⟨hkb2, _⟩
      · rw [hf2]
      · rw [hka] at hkb2
        exact absurd hkb2 (by decide)
    · rw [hfb] at hsc
      cases hsc
  · intro k f hmem hsc
    refine ⟨rfl, ?_⟩
    intro f2 hmem2
    rw [show (Facts.consE "a" (.leaf ⟨"a", .atom 1, .iteration, .base⟩)
          (Facts.consE "b" (.leaf ⟨"b", .atom 2, .session, .base⟩) .nil)).flatten
        = [("a", ⟨"a", .atom 1, .iteration, .base⟩),
           ("b", ⟨"b", .atom 2, .session, .base⟩)] from rfl] at hmem hmem2
    have hk : k = "a" ∧ f = ⟨"a", .atom 1, .iteration, .base⟩
        ∨ k = "b" ∧ f = ⟨"b", .atom 2, .session, .base⟩ := by simpa using hmem
    have hk2 : k = "a" ∧ f2 = ⟨"a", .atom 1, .iteration, .base⟩
        ∨ k = "b" ∧ f2 = ⟨"b", .atom 2, .session, .base⟩ := by simpa using hmem2
    rcases hk with ⟨hka, hfa⟩ | ⟨hkb, hfb⟩
    · rw [hfa] at hsc
      exact absurd rfl hsc
    · rcases hk2 with ⟨hka2, _⟩ | ⟨_, hf2⟩
      · rw [hkb] at hka2
        exact absurd hka2 (by decide)
      · rw [hf2]
        decide

/-- C1, counterexample: for the legal Facts tree `Facts(g=Facts())` (a
nested empty group, constructible and satisfying every documented class
invariant), `Facts.deserialize(X.serialize())` returns the empty `Facts`,
which does not equal `X` structurally nor by fact value/scope — so
`deserialize ∘ serialize` is not the identity on all legal inputs. -/
theorem C1_roundtrip_counterexample :
    Facts.deserialize (Facts.consE "g" (.group .nil) .nil).serialize = .ok .nil
      ∧ Facts.eqVS .nil (Facts.consE "g" (.group .nil) .nil) = false
      ∧ Facts.nil ≠ Facts.consE "g" (.group .nil) .nil := by
  refine ⟨rfl, rfl, ?_⟩
  intro h
  cases h

/-- C1 (amended): for every legal Facts tree (identifier-like mapping
keys, unique per level, key-aligned leaves) with no empty subgroup,
`Facts.deserialize(X.serialize())` returns a tree equal to `X`
structurally and by fact key/value/scope; only the `Fact` subclass tag is
replaced by the base class. -/
theorem C1_serialize_deserialize_identity (t : Facts) (hl : t.legalB = true)
    (hnv : t.nonvacB = true) :
    ∃ t2, Facts.deserialize t.serialize = .ok t2 ∧ Facts.eqVS t2 t = true :=
  ⟨t.baseify, Facts.deserialize_serialize t hl hnv, Facts.baseify_eqVS t⟩

theorem C1_serialize_deserialize_identity_witness :
    ∃ t2, Facts.deserialize (Facts.consE "a"
        (.leaf ⟨"a", .atom 1, .session, .knowledge⟩)
        (Facts.consE "g" (.group (Facts.consE "b"
          (.leaf ⟨"b", .atom 2, .iteration, .progress⟩) .nil)) .nil)).serialize
      = .ok t2
      ∧ Facts.eqVS t2 (Facts.consE "a"
          (.leaf ⟨"a", .atom 1, .session, .knowledge⟩)
          (Facts.consE "g" (.group (Facts.consE "b"
            (.leaf ⟨"b", .atom 2, .iteration, .progress⟩) .nil)) .nil)) = true :=
  C1_serialize_deserialize_identity _ (by decide) (by decide)

/-- C2, counterexample: for the nested Facts tree `Facts(g=Facts())`,
`flatten` produces the empty mapping, so `Facts.unflatten(X.flatten())`
returns the empty `Facts`, not `X`: `unflatten ∘ flatten` is not the
identity on every nested Facts tree. -/
theorem C2_roundtrip_counterexample :
    Facts.unflatten (Facts.consE "g" (.group .nil) .nil).flatten = .ok .nil
      ∧ Facts.nil ≠ Facts.consE "g" (.group .nil) .nil := by
  refine ⟨rfl, ?_⟩
  intro h
  cases h

/-- C2 (amended): `unflatten(flatten(X)) = X` for every nested Facts tree
with identifier-like keys (nonempty, dot-free, unique per level) and no
empty subgroup; and for every flat mapping whose dotted keys are built
from identifier-like segments, are distinct, and are pairwise
non-overlapping (no key a dotted prefix of another),
`flatten(unflatten(F))` equals `F` as a Python dict (same lookup at every
key). -/
theorem C2_flatten_unflatten_iso :
    (∀ t : Facts, t.legalB = true → t.nonvacB = true →
      Facts.unflatten t.flatten = .ok t) ∧
    (∀ F : List (String × Fact),
      (∀ kf ∈ F, ∀ seg ∈ splitDots kf.1, validKey seg) →
      (F.map Prod.fst).Nodup →
      (∀ kf1 ∈ F, ∀ kf2 ∈ F, kf1.1 ≠ kf2.1 →
        pathBelow (splitDots kf1.1) (splitDots kf2.1) = false) →
      ∃ t, Facts.unflatten F = .ok t ∧
        ∀ key, lookupFlat t.flatten key = lookupFlat F key) :=
  ⟨Facts.unflatten_flatten, Facts.flatten_unflatten⟩

theorem C2_flatten_unflatten_iso_witness :
    Facts.unflatten (Facts.consE "a" (.leaf ⟨"a", .atom 1, .session, .base⟩)
        (Facts.consE "g" (.group (Facts.consE "b"
          (.leaf ⟨"b", .atom 2, .iteration, .base⟩) .nil)) .nil)).flatten
      = .ok (Facts.consE "a" (.leaf ⟨"a", .atom 1, .session, .base⟩)
        (Facts.consE "g" (.group (Facts.consE "b"
          (.leaf ⟨"b", .atom 2, .iteration, .base⟩) .nil)) .nil))
      ∧ (∃ t, Facts.unflatten
            [("g.b", ⟨"b", .atom 2, .session, .base⟩),
             ("a", ⟨"a", .atom 1, .session, .base⟩)] = .ok t
          ∧ ∀ key, lookupFlat t.flatten key
              = lookupFlat [("g.b", (⟨"b", .atom 2, .session, .base⟩ : Fact)),
                  ("a", ⟨"a", .atom 1, .session, .base⟩)] key) :=
  ⟨C2_flatten_unflatten_iso.1 _ (by decide) (by decide),
   C2_flatten_unflatten_iso.2 _ (by decide) (by decide) (by decide)⟩

/-- C10: `Facts.__init__` rejects (with `ValueError`) any mapping entry
whose leaf fact has `fact.key` different from the mapping key, but
`Facts.unflatten` performs raw dict assignments with no such check: on
the flat mapping `{"x": Fact(key="y", ...)}` it returns a tree whose leaf
at mapping key `"x"` carries `fact.key = "y"`, violating the key-alignment
invariant. -/
theorem C10_unflatten_skips_key_alignment :
    (∀ (entries : List (String × FactsValue)) (k : String) (f : Fact),
      (k, .leaf f) ∈ entries → f.key ≠ k →
      Facts.init entries = .error .valueError) ∧
    Facts.unflatten [("x", ⟨"y", .atom 0, .iteration, .base⟩)]
      = .ok (Facts.consE "x" (.leaf ⟨"y", .atom 0, .iteration, .base⟩) .nil) ∧
    ("y" : String) ≠ "x" :=
  ⟨Facts.init_mismatch, by decide, by decide⟩

theorem C10_unflatten_skips_key_alignment_witness :
    Facts.init [("x", .leaf ⟨"y", .atom 0, .iteration, .base⟩)]
      = .error .valueError :=
  C10_unflatten_skips_key_alignment.1
    [("x", .leaf ⟨"y", .atom 0, .iteration, .base⟩)] "x"
    ⟨"y", .atom 0, .iteration, .base⟩ (by decide) (by decide)

/-- C5: `TransitionPolicy.derive_phase(S)` — with `matches` meaning
`when_all ⊆ S`, `when_any` empty or intersecting S, `when_none` disjoint
from S — returns the enter phase of the unique matching rule, returns
the sentinel `None` when no rule matches, and raises a non-determinism
`ValueError` listing the overlapping target phases when more than one
rule matches. -/
theorem C5_derive_phase_trichotomy (tp : TransitionPolicy) (S : List String) :
    (∀ r : PhaseRule, r.matches S = true ↔
      ((∀ k ∈ r.when_all, k ∈ S)
        ∧ (r.when_any = [] ∨ ∃ k ∈ r.when_any, k ∈ S)
        ∧ (∀ k ∈ r.when_none, k ∉ S)))
    ∧ ((∀ r ∈ tp.rules, r.matches S = false) → tp.derive_phase S = .ok none)
    ∧ (tp.rules.countP (fun r => r.matches S) = 1 →
        ∃ r ∈ tp.rules, r.matches S = true ∧ tp.derive_phase S = .ok (some r.enter))
    ∧ (2 ≤ tp.rules.countP (fun r => r.matches S) →
        tp.derive_phase S
          = .error ((tp.rules.filter fun r => r.matches S).map PhaseRule.enter)) := by
  refine ⟨?_, ?_, ?_, ?_⟩
  · intro r
    simp only [PhaseRule.matches, Bool.and_eq_true, Bool.or_eq_true, Bool.not_eq_true',
      List.all_eq_true, List.any_eq_true, decide_eq_true_eq, List.any_eq_false,
      List.isEmpty_iff, and_assoc]
  · intro hnone
    have hfilter : (tp.rules.filter fun r => r.matches S) = [] := by
      rw [List.filter_eq_nil]
      intro r hr
      simp [hnone r hr]
    unfold TransitionPolicy.derive_phase
    rw [hfilter]
  · intro hcount
    rw [List.countP_eq_length_filter] at hcount
    cases hfilter : tp.rules.filter fun r => r.matches S with
    | nil => rw [hfilter] at hcount; cases hcount
    | cons r rest =>
        cases rest with
        | nil =>
            have hrmem : r ∈ tp.rules.filter fun r2 => r2.matches S := by
              rw [hfilter]
              exact List.mem_cons_self r []
            have hrm := List.of_mem_filter hrmem
            refine ⟨r, List.mem_of_mem_filter hrmem, hrm, ?_⟩
            unfold TransitionPolicy.derive_phase
            rw [hfilter]
        | cons r2 rest2 =>
            rw [hfilter] at hcount
            simp at hcount
  · intro hcount
    rw [List.countP_eq_length_filter] at hcount
    cases hfilter : tp.rules.filter fun r => r.matches S with
    | nil => rw [hfilter] at hcount; cases hcount
    | cons r rest =>
        cases rest with
        | nil =>
            rw [hfilter] at hcount
            simp at hcount
        | cons r2 rest2 =>
            unfold TransitionPolicy.derive_phase
            rw [hfilter]

theorem C5_derive_phase_trichotomy_witness :
    TransitionPolicy.derive_phase
      ⟨[⟨"A", ["x"], [], []⟩, ⟨"B", ["x"], [], []⟩], "D"⟩ ["x"]
      = .error ["A", "B"] :=
  ((C5_derive_phase_trichotomy
      ⟨[⟨"A", ["x"], [], []⟩, ⟨"B", ["x"], [], []⟩], "D"⟩ ["x"]).2.2.2
    (by decide)).trans (by decide)

/-- C4: at the iteration boundary the controller evaluates, over the
durable fact keys, completion, then failure, then missing user-required
keys, then missing required-state keys, then transition derivation,
strictly in this order; in particular when both a completion key and a
failure key are present in the durable keys the decision is the
completion break (terminate with success). -/
theorem C4_control_precedence (cp : ControlPolicy) (tp : TransitionPolicy)
    (dk : List String) :
    ((∃ k ∈ cp.completion_keys, k ∈ dk) → controlStep cp tp dk = .ok .complete)
    ∧ ((∀ k ∈ cp.completion_keys, k ∉ dk) → (∃ k ∈ cp.failure_keys, k ∈ dk) →
        controlStep cp tp dk = .ok .failure)
    ∧ ((∀ k ∈ cp.completion_keys, k ∉ dk) → (∀ k ∈ cp.failure_keys, k ∉ dk) →
        (∃ k ∈ cp.user_required_keys, k ∉ dk) →
        controlStep cp tp dk = .ok .pauseUser)
    ∧ ((∀ k ∈ cp.completion_keys, k ∉ dk) → (∀ k ∈ cp.failure_keys, k ∉ dk) →
        (∀ k ∈ cp.user_required_keys, k ∈ dk) →
        (∃ k ∈ cp.required_state_keys, k ∉ dk) →
        controlStep cp tp dk = .ok .pauseState)
    ∧ ((∀ k ∈ cp.completion_keys, k ∉ dk) → (∀ k ∈ cp.failure_keys, k ∉ dk) →
        (∀ k ∈ cp.user_required_keys, k ∈ dk) →
        (∀ k ∈ cp.required_state_keys, k ∈ dk) →
        controlStep cp tp dk =
          match tp.derive_phase dk with
          | .error e => .error e
          | .ok none => .ok .noTransition
          | .ok (some p) => .ok (.advance p))
    ∧ (∀ k1 ∈ cp.completion_keys, ∀ k2 ∈ cp.failure_keys, k1 ∈ dk → k2 ∈ dk →
        controlStep cp tp dk = .ok .complete) := by
  refine ⟨?_, ?_, ?_, ?_, ?_, ?_⟩
  · rintro ⟨k, hk, hkdk⟩
    unfold controlStep
    rw [if_pos (List.any_eq_true.mpr ⟨k, hk, by simpa using hkdk⟩)]
  · intro hnc hf
    obtain ⟨k, hk, hkdk⟩ := hf
    unfold controlStep
    rw [if_neg (by
        intro hany
        obtain ⟨k2, hk2, hk2dk⟩ := List.any_eq_true.mp hany
        exact hnc k2 hk2 (by simpa using hk2dk))]
    rw [if_pos (List.any_eq_true.mpr ⟨k, hk, by simpa using hkdk⟩)]
  · intro hnc hnf hu
    obtain ⟨k, hk, hkdk⟩ := hu
    unfold controlStep
    rw [if_neg (by
        intro hany
        obtain ⟨k2, hk2, hk2dk⟩ := List.any_eq_true.mp hany
        exact hnc k2 hk2 (by simpa using hk2dk))]
    rw [if_neg (by
        intro hany
        obtain ⟨k2, hk2, hk2dk⟩ := List.any_eq_true.mp hany
        exact hnf k2 hk2 (by simpa using hk2dk))]
    rw [if_pos (List.any_eq_true.mpr ⟨k, hk, by simpa using hkdk⟩)]
  · intro hnc hnf hu hs
    obtain ⟨k, hk, hkdk⟩ := hs
    unfold controlStep
    rw [if_neg (by
        intro hany
        obtain ⟨k2, hk2, hk2dk⟩ := List.any_eq_true.mp hany
        exact hnc k2 hk2 (by simpa using hk2dk))]
    rw [if_neg (by
        intro hany
        obtain ⟨k2, hk2, hk2dk⟩ := List.any_eq_true.mp hany
        exact hnf k2 hk2 (by simpa using hk2dk))]
    rw [if_neg (by
        intro hany
        obtain ⟨k2, hk2, hk2dk⟩ := List.any_eq_true.mp hany
        exact (by simpa using hk2dk : k2 ∉ dk) (hu k2 hk2))]
    rw [if_pos (List.any_eq_true.mpr ⟨k, hk, by simpa using hkdk⟩)]
  · intro hnc hnf hu hs
    unfold controlStep
    rw [if_neg (by
        intro hany
        obtain ⟨k2, hk2, hk2dk⟩ := List.any_eq_true.mp hany
        exact hnc k2 hk2 (by simpa using hk2dk))]
    rw [if_neg (by
        intro hany
        obtain ⟨k2, hk2, hk2dk⟩ := List.any_eq_true.mp hany
        exact hnf k2 hk2 (by simpa using hk2dk))]
    rw [if_neg (by
        intro hany
        obtain ⟨k2, hk2, hk2dk⟩ := List.any_eq_true.mp hany
        exact (by simpa using hk2dk : k2 ∉ dk) (hu k2 hk2))]
    rw [if_neg (by
        intro hany
        obtain ⟨k2, hk2, hk2dk⟩ := List.any_eq_true.mp hany
        exact (by simpa using hk2dk : k2 ∉ dk) (hs k2 hk2))]
  · intro k1 hk1 k2 hk2 hk1dk _
    unfold controlStep
    rw [if_pos (List.any_eq_true.mpr ⟨k1, hk1, by simpa using hk1dk⟩)]

theorem C4_control_precedence_witness :
    controlStep ⟨[], [], ["done"], ["err"]⟩ ⟨[], "D"⟩ ["done", "err"]
      = .ok .complete :=
  (C4_control_precedence ⟨[], [], ["done"], ["err"]⟩ ⟨[], "D"⟩
    ["done", "err"]).2.2.2.2.2 "done" (by decide) "err" (by decide)
    (by decide) (by decide)

/-- C7: a failed action (its `instruction()` raised; reported by the
procedure executor as an unsuccessful result) is treated as non-emitting:
the entire iteration — final state, by-action record, the single
`store.save` call, and the boundary decision — is identical to the
iteration without that action, so facts of the remaining (earlier and
later) actions are still applied and prior successful actions are still
persisted. -/
theorem C7_failed_action_non_emitting (cp : ControlPolicy) (tp : TransitionPolicy)
    (agentId : String) (iterNo : Nat) (phase : String) (loaded : Facts)
    (pre post : List (String × Result)) (name : String) (v : RValue) :
    runIterationBody cp tp agentId iterNo phase loaded
        (pre ++ [(name, ⟨false, v⟩)] ++ post)
      = runIterationBody cp tp agentId iterNo phase loaded (pre ++ post)
    ∧ byActionOf (pre ++ [(name, ⟨false, v⟩)] ++ post)
      = byActionOf pre ++ byActionOf post := by
  have h1 : applyResults ((IterationState.init loaded).beginIteration)
        (pre ++ [(name, ⟨false, v⟩)] ++ post)
      = applyResults ((IterationState.init loaded).beginIteration) (pre ++ post) := by
    rw [applyResults_append, applyResults_append, applyResults_failed,
      ← applyResults_append]
  have h2 : byActionOf (pre ++ [(name, ⟨false, v⟩)] ++ post)
      = byActionOf (pre ++ post) := by
    rw [byActionOf_append, byActionOf_append, byActionOf_failed, byActionOf_append]
    simp
  refine ⟨?_, by rw [h2, byActionOf_append]⟩
  unfold runIterationBody finalizeIteration
  simp only [h1, h2]

/-- C8, counterexample: an iteration whose only action failed (so no
action emitted any Facts) completes without any call to `store.save` —
`_finalize_iteration` returns early on an empty `by_action` map, so
`save` is not called once per completed iteration as claimed. -/
theorem C8_save_skipped_counterexample :
    runIterationBody ⟨[], [], ["done"], []⟩ ⟨[], "D"⟩ "agent" 1 "P" .nil
        [("a", ⟨false, .nonFacts⟩)]
      = .ok ⟨⟨[], []⟩, none, .ok .noTransition⟩ := by
  decide

/-- C8 (amended): a completed controller iteration calls `store.save`
exactly once — with the `IterationFacts` record built from the by-action
map of successful emissions and `state.persistent_facts()` as the
durable snapshot — if and only if at least one action successfully
emitted a `Facts` value; an iteration in which no action emitted any
Facts skips `store.save` entirely. -/
theorem C8_save_once_per_emitting_iteration (cp : ControlPolicy)
    (tp : TransitionPolicy) (agentId : String) (iterNo : Nat) (phase : String)
    (loaded : Facts) (results : List (String × Result))
    (outcome : IterationOutcome)
    (hrun : runIterationBody cp tp agentId iterNo phase loaded results
      = .ok outcome) :
    (byActionOf results = [] → outcome.saveCall = none)
    ∧ (byActionOf results ≠ [] →
        ∃ snap, (applyResults ((IterationState.init loaded).beginIteration)
            results).persistentFacts = .ok snap
          ∧ outcome.saveCall
            = some ⟨agentId, ⟨iterNo, phase, byActionOf results⟩, snap⟩) := by
  have hrun2 : (do
      let save ← finalizeIteration agentId iterNo phase results
        (applyResults ((IterationState.init loaded).beginIteration) results)
      let durable ← (applyResults ((IterationState.init loaded).beginIteration)
        results).persistentFacts
      Except.ok (⟨applyResults ((IterationState.init loaded).beginIteration) results,
        save, controlStep cp tp (durable.serialize.map Prod.fst)⟩ : IterationOutcome))
      = Except.ok outcome := hrun
  clear hrun
  unfold finalizeIteration at hrun2
  cases hba : byActionOf results with
  | nil =>
      rw [hba] at hrun2
      refine ⟨fun _ => ?_, fun hne => absurd rfl hne⟩
      have hrun3 : (do
          let durable ← (applyResults ((IterationState.init loaded).beginIteration)
            results).persistentFacts
          Except.ok (⟨applyResults ((IterationState.init loaded).beginIteration)
            results, none,
            controlStep cp tp (durable.serialize.map Prod.fst)⟩ : IterationOutcome))
          = Except.ok outcome := hrun2
      cases hsnap : (applyResults ((IterationState.init loaded).beginIteration)
          results).persistentFacts with
      | error e =>
          rw [hsnap] at hrun3
          have hrun4 : (Except.error e : Except PyError IterationOutcome)
              = Except.ok outcome := hrun3
          cases hrun4
      | ok d =>
          rw [hsnap] at hrun3
          have hrun4 : Except.ok
              (⟨applyResults ((IterationState.init loaded).beginIteration) results,
                none, controlStep cp tp (d.serialize.map Prod.fst)⟩ : IterationOutcome)
              = Except.ok outcome := hrun3
          cases hrun4
          rfl
  | cons ba1 rest =>
      rw [hba] at hrun2
      refine ⟨fun heq => absurd heq (List.cons_ne_nil _ _), fun _ => ?_⟩
      cases hsnap : (applyResults ((IterationState.init loaded).beginIteration)
          results).persistentFacts with
      | error e =>
          rw [hsnap] at hrun2
          have hrun4 : (Except.error e : Except PyError IterationOutcome)
              = Except.ok outcome := hrun2
          cases hrun4
      | ok snap =>
          rw [hsnap] at hrun2
          have hrun4 : Except.ok
              (⟨applyResults ((IterationState.init loaded).beginIteration) results,
                some ⟨agentId, ⟨iterNo, phase, ba1 :: rest⟩, snap⟩,
                controlStep cp tp (snap.serialize.map Prod.fst)⟩ : IterationOutcome)
              = Except.ok outcome := hrun2
          cases hrun4
          exact ⟨snap, rfl, rfl⟩

theorem C8_save_once_per_emitting_iteration_witness :
    (byActionOf [("a", ⟨true, .facts (Facts.consE "done"
        (.leaf ⟨"done", .atom 1, .session, .base⟩) .nil)⟩)] = [] →
      (IterationOutcome.mk ⟨[("done", ⟨"done", .atom 1, .session, .base⟩)], []⟩
        (some ⟨"agent", ⟨1, "P", [("a", Facts.consE "done"
          (.leaf ⟨"done", .atom 1, .session, .base⟩) .nil)]⟩,
          Facts.consE "done" (.leaf ⟨"done", .atom 1, .session, .base⟩) .nil⟩)
        (.ok .complete)).saveCall = none)
    ∧ (byActionOf [("a", ⟨true, .facts (Facts.consE "done"
        (.leaf ⟨"done", .atom 1, .session, .base⟩) .nil)⟩)] ≠ [] →
      ∃ snap, (applyResults ((IterationState.init .nil).beginIteration)
          [("a", ⟨true, .facts (Facts.consE "done"
            (.leaf ⟨"done", .atom 1, .session, .base⟩) .nil)⟩)]).persistentFacts
        = .ok snap
        ∧ (IterationOutcome.mk ⟨[("done", ⟨"done", .atom 1, .session, .base⟩)], []⟩
          (some ⟨"agent", ⟨1, "P", [("a", Facts.consE "done"
            (.leaf ⟨"done", .atom 1, .session, .base⟩) .nil)]⟩,
            Facts.consE "done" (.leaf ⟨"done", .atom 1, .session, .base⟩) .nil⟩)
          (.ok .complete)).saveCall
          = some ⟨"agent", ⟨1, "P", byActionOf [("a", ⟨true,
              .facts (Facts.consE "done"
                (.leaf ⟨"done", .atom 1, .session, .base⟩) .nil)⟩)]⟩, snap⟩) :=
  C8_save_once_per_emitting_iteration ⟨[], [], ["done"], []⟩ ⟨[], "D"⟩
    "agent" 1 "P" .nil _ _ (by decide)

/-- A nested build where the flattened key is `g.a` but the stored
fact's own `key` attribute is only the final segment `a`, refuting the
original fully-qualified key-alignment reading of the claim. -/
theorem C9_key_alignment_counterexample :
    EmissionSpec.build
        ⟨true, .cons "g" (.nested ⟨true,
          .cons "a" (.leafE ⟨.session, .base, true⟩) .nil⟩) .nil⟩
        (.cons "g" (.pdict (.cons "a" (.atom 0) .nil)) .nil)
      = .ok (.consE "g" (.group (.consE "a"
          (.leaf ⟨"a", .atom 0, .session, .base⟩) .nil)) .nil)
    ∧ (Facts.consE "g" (FactsValue.group (.consE "a"
          (.leaf ⟨"a", .atom 0, .session, .base⟩) .nil)) .nil).flatten
      = [("g.a", ⟨"a", .atom 0, .session, .base⟩)]
    ∧ (Fact.mk "a" (.atom 0) .session .base).key ≠ "g.a" := by
  refine ⟨?_, by decide, by decide⟩
  have hone_a : buildOne (.cons "a" (.leafE ⟨.session, .base, true⟩) .nil)
      "a" (.atom 0)
      = .ok (.leaf ⟨"a", .atom 0, .session, .base⟩) := by
    rw [buildOne_eq]
    rfl
  have hbv_a : buildValues (.cons "a" (.leafE ⟨.session, .base, true⟩) .nil)
      (.cons "a" (.atom 0) .nil)
      = .ok [("a", .leaf ⟨"a", .atom 0, .session, .base⟩)] := by
    rw [buildValues_cons, hone_a]
    show (do
        let r ← buildValues (.cons "a" (.leafE ⟨.session, .base, true⟩) .nil)
          PyFields.nil
        Except.ok (("a", FactsValue.leaf ⟨"a", .atom 0, .session, .base⟩) :: r))
      = _
    rw [buildValues_nil]
    rfl
  have hinner : EmissionSpec.build
      ⟨true, .cons "a" (.leafE ⟨.session, .base, true⟩) .nil⟩
      (.cons "a" (.atom 0) .nil)
      = .ok (.consE "a" (.leaf ⟨"a", .atom 0, .session, .base⟩) .nil) := by
    rw [EmissionSpec.build_eq]
    show (do
        let kwargs ← buildValues
          (.cons "a" (.leafE ⟨.session, .base, true⟩) .nil)
          (.cons "a" (.atom 0) .nil)
        match Facts.init kwargs with
        | .ok t => Except.ok t
        | .error _ => Except.error BuildError.valueError) = _
    rw [hbv_a]
    rfl
  have hone_g : buildOne (.cons "g" (.nested ⟨true,
        .cons "a" (.leafE ⟨.session, .base, true⟩) .nil⟩) .nil)
      "g" (.pdict (.cons "a" (.atom 0) .nil))
      = .ok (.group (.consE "a" (.leaf ⟨"a", .atom 0, .session, .base⟩) .nil)) := by
    rw [buildOne_eq]
    show Except.map FactsValue.group (EmissionSpec.build
        ⟨true, .cons "a" (.leafE ⟨.session, .base, true⟩) .nil⟩
        (.cons "a" (.atom 0) .nil)) = _
    rw [hinner]
    rfl
  have hbv_g : buildValues (.cons "g" (.nested ⟨true,
        .cons "a" (.leafE ⟨.session, .base, true⟩) .nil⟩) .nil)
      (.cons "g" (.pdict (.cons "a" (.atom 0) .nil)) .nil)
      = .ok [("g", .group (.consE "a"
          (.leaf ⟨"a", .atom 0, .session, .base⟩) .nil))] := by
    rw [buildValues_cons, hone_g]
    show (do
        let r ← buildValues (.cons "g" (.nested ⟨true,
            .cons "a" (.leafE ⟨.session, .base, true⟩) .nil⟩) .nil)
          PyFields.nil
        Except.ok (("g", FactsValue.group (.consE "a"
          (.leaf ⟨"a", .atom 0, .session, .base⟩) .nil)) :: r)) = _
    rw [buildValues_nil]
    rfl
  rw [EmissionSpec.build_eq]
  show (do
      let kwargs ← buildValues
        (.cons "g" (.nested ⟨true,
          .cons "a" (.leafE ⟨.session, .base, true⟩) .nil⟩) .nil)
        (.cons "g" (.pdict (.cons "a" (.atom 0) .nil)) .nil)
      match Facts.init kwargs with
      | .ok t => Except.ok t
      | .error _ => Except.error BuildError.valueError) = _
  rw [hbv_g]
  rfl

/-- C9: `EmissionSpec.build(**v)` fails listing exactly the undeclared
top-level keys of `v` when there are any, otherwise fails listing
exactly the required declared keys absent from `v` when there are any,
and under the success conditions returns a Facts whose top-level keys
are exactly the keys of `v` and whose every binding follows its
declaration: each leaf carries its own (final-segment) mapping key, the
declared scope and the declared fact class, and each nested group
recursively follows the nested spec — the fact's `key` attribute is the
local mapping key, not the fully qualified dotted key. -/
theorem C9_build_contract (s : EmissionSpec) (values : PyFields) :
    ((∃ k, k ∈ values.keys ∧ s.emissions.lookupE k = none) →
      ∃ ks, s.build values = .error (.undeclared ks) ∧ ks ≠ []
        ∧ (∀ k ∈ ks, k ∈ values.keys ∧ s.emissions.lookupE k = none)
        ∧ (∀ k, k ∈ values.keys → s.emissions.lookupE k = none → k ∈ ks))
    ∧ ((∀ k ∈ values.keys, (s.emissions.lookupE k).isSome = true) →
       (∃ k e, (k, e) ∈ s.emissions.toListE ∧ e.requiredE = true
          ∧ k ∉ values.keys) →
       ∃ ks, s.build values = .error (.missingRequired ks) ∧ ks ≠ []
        ∧ (∀ k ∈ ks, (∃ e, (k, e) ∈ s.emissions.toListE ∧ e.requiredE = true)
            ∧ k ∉ values.keys)
        ∧ (∀ k, (∃ e, (k, e) ∈ s.emissions.toListE ∧ e.requiredE = true) →
            k ∉ values.keys → k ∈ ks))
    ∧ (buildOkB s values = true →
       ∃ t, s.build values = .ok t ∧ t.keys = values.keys
        ∧ followsSpecB t s.emissions = true) := by
  obtain ⟨req, es⟩ := s
  have hem : (EmissionSpec.mk req es).emissions = es := rfl
  refine ⟨?_, ?_, ?_⟩
  · intro h
    obtain ⟨k, hk, hnone⟩ := h
    rw [hem] at hnone
    have hkf : k ∈ values.keys.filter (fun x => (es.lookupE x).isNone) :=
      List.mem_filter.mpr ⟨hk, by simp [hnone]⟩
    cases hu : values.keys.filter (fun x => (es.lookupE x).isNone) with
    | nil => rw [hu] at hkf; cases hkf
    | cons u1 urest =>
        refine ⟨u1 :: urest, ?_, by simp, ?_, ?_⟩
        · show EmissionSpec.build ⟨req, es⟩ values = _
          rw [EmissionSpec.build_eq, hu]
        · intro k2 hk2
          have hk2f : k2 ∈ values.keys.filter (fun x => (es.lookupE x).isNone) := by
            rw [hu]
            exact hk2
          have hm := List.mem_filter.mp hk2f
          rw [hem]
          exact ⟨hm.1, by simpa using hm.2⟩
        · intro k2 hk2mem hk2none
          rw [hem] at hk2none
          rw [← hu]
          exact List.mem_filter.mpr ⟨hk2mem, by simp [hk2none]⟩
  · intro hdecl hex
    rw [hem] at hdecl hex
    have hfilter : values.keys.filter (fun x => (es.lookupE x).isNone) = [] := by
      rw [List.filter_eq_nil_iff]
      intro k hk
      have hs := hdecl k hk
      cases hlk : es.lookupE k with
      | none => rw [hlk] at hs; cases hs
      | some e => simp [hlk]
    obtain ⟨k, e, hmem, hr, hnv⟩ := hex
    have hkmiss : k ∈ es.missingKeys values.keys :=
      (mem_missingKeys es values.keys k).mpr ⟨e, hmem, hr, hnv⟩
    cases hm : es.missingKeys values.keys with
    | nil => rw [hm] at hkmiss; cases hkmiss
    | cons m1 mrest =>
        refine ⟨m1 :: mrest, ?_, by simp, ?_, ?_⟩
        · show EmissionSpec.build ⟨req, es⟩ values = _
          rw [EmissionSpec.build_eq, hfilter, hm]
        · intro k2 hk2
          have hk2m : k2 ∈ es.missingKeys values.keys := by
            rw [hm]
            exact hk2
          obtain ⟨e2, hm2, hr2, hnv2⟩ := (mem_missingKeys es values.keys k2).mp hk2m
          rw [hem]
          exact ⟨⟨e2, hm2, hr2⟩, hnv2⟩
        · intro k2 hk2ex hk2nv
          rw [hem] at hk2ex
          obtain ⟨e2, hm2, hr2⟩ := hk2ex
          rw [← hm]
          exact (mem_missingKeys es values.keys k2).mpr ⟨e2, hm2, hr2, hk2nv⟩
  · intro hok
    exact (build_ok_fuel (sizeOf (EmissionSpec.mk req es) + sizeOf values)).1
      ⟨req, es⟩ values (Nat.le_refl _) hok

theorem C9_build_contract_witness :
    (∃ ks, EmissionSpec.build
        ⟨true, .cons "a" (.leafE ⟨.session, .base, true⟩) .nil⟩
        (.cons "b" (.atom 0) .nil) = .error (.undeclared ks) ∧ ks ≠ []
      ∧ (∀ k ∈ ks, k ∈ (PyFields.cons "b" (.atom 0) .nil).keys
          ∧ (EmissionSpec.mk true (.cons "a" (.leafE ⟨.session, .base, true⟩)
              .nil)).emissions.lookupE k = none)
      ∧ (∀ k, k ∈ (PyFields.cons "b" (.atom 0) .nil).keys →
          (EmissionSpec.mk true (.cons "a" (.leafE ⟨.session, .base, true⟩)
              .nil)).emissions.lookupE k = none → k ∈ ks))
    ∧ (∃ ks, EmissionSpec.build
        ⟨true, .cons "a" (.leafE ⟨.session, .base, true⟩) .nil⟩
        PyFields.nil = .error (.missingRequired ks) ∧ ks ≠ []
      ∧ (∀ k ∈ ks, (∃ e, (k, e) ∈ (EmissionSpec.mk true
            (.cons "a" (.leafE ⟨.session, .base, true⟩) .nil)).emissions.toListE
            ∧ e.requiredE = true) ∧ k ∉ PyFields.nil.keys)
      ∧ (∀ k, (∃ e, (k, e) ∈ (EmissionSpec.mk true
            (.cons "a" (.leafE ⟨.session, .base, true⟩) .nil)).emissions.toListE
            ∧ e.requiredE = true) → k ∉ PyFields.nil.keys → k ∈ ks))
    ∧ (∃ t, EmissionSpec.build
        ⟨true, .cons "a" (.leafE ⟨.session, .base, true⟩) .nil⟩
        (.cons "a" (.atom 7) .nil) = .ok t
      ∧ t.keys = (PyFields.cons "a" (.atom 7) .nil).keys
      ∧ followsSpecB t (EmissionSpec.mk true
          (.cons "a" (.leafE ⟨.session, .base, true⟩) .nil)).emissions = true) :=
  ⟨(C9_build_contract ⟨true, .cons "a" (.leafE ⟨.session, .base, true⟩) .nil⟩
      (.cons "b" (.atom 0) .nil)).1 ⟨"b", by simp [PyFields.keys], rfl⟩,
   (C9_build_contract ⟨true, .cons "a" (.leafE ⟨.session, .base, true⟩) .nil⟩
      PyFields.nil).2.1 (by intro k hk; simp [PyFields.keys] at hk)
      ⟨"a", .leafE ⟨.session, .base, true⟩,
        List.mem_cons_self _ _, rfl, by simp [PyFields.keys]⟩,
   (C9_build_contract ⟨true, .cons "a" (.leafE ⟨.session, .base, true⟩) .nil⟩
      (.cons "a" (.atom 7) .nil)).2.2
      (by rw [buildOkB_eq, valuesOkB_cons, valuesOkB_nil, oneOkB_eq]; rfl)⟩

/-- C6 (code bug): the claimed FactScopeError is never raised.
`validate_fact_scopes` dereferences the nonexistent `template.actions`
attribute of every `ProcedureTemplate` (`validation.py:81` against
`procedures.py:19`–`21`), so for every spec with a non-empty procedures
mapping the validation raises `AttributeError` before performing any
scope check; in particular the spec's scenario 6 — an action declaring
`emits = {'ready': 'iteration'}` referenced by a `PhaseRule.when_all` —
makes `AgentSpec` construction fail with `AttributeError`, not with a
`FactScopeError` naming the action, key and scope. -/
theorem C6_fact_scope_validation_attribute_error :
    (∀ (procs : List (String × ProcedureTemplate)) (tp : TransitionPolicy)
       (cp : ControlPolicy), procs ≠ [] →
       validate_fact_scopes procs tp cp
         = .error (.attributeError "ProcedureTemplate" "actions"))
    ∧ AgentSpec.validate scenarioSix
        = .error (.attributeError "ProcedureTemplate" "actions")
    ∧ (∀ issues, AgentSpec.validate scenarioSix
        ≠ .error (.factScopeError issues)) := by
  have h2 : AgentSpec.validate scenarioSix
      = .error (.attributeError "ProcedureTemplate" "actions") := by decide
  refine ⟨?_, h2, ?_⟩
  · intro procs tp cp hne
    cases procs with
    | nil => exact absurd rfl hne
    | cons h rest =>
        obtain ⟨p, t⟩ := h
        rfl
  · intro issues hc
    rw [h2] at hc
    simp at hc

theorem C6_fact_scope_validation_attribute_error_witness :
    validate_fact_scopes
        [("WORK", ⟨"work", [⟨"EmitReady", true, [("ready", Scope.iteration)]⟩]⟩)]
        ⟨[⟨"WORK", ["ready"], [], []⟩], "WORK"⟩ ⟨[], [], ["task.complete"], []⟩
      = .error (.attributeError "ProcedureTemplate" "actions") :=
  C6_fact_scope_validation_attribute_error.1
    [("WORK", ⟨"work", [⟨"EmitReady", true, [("ready", Scope.iteration)]⟩]⟩)]
    ⟨[⟨"WORK", ["ready"], [], []⟩], "WORK"⟩ ⟨[], [], ["task.complete"], []⟩
    (by simp)

end Slater
